import Mathlib

set_option linter.unusedSectionVars false
set_option linter.unusedVariables false

/-!
Verification development for the symbolic-numeric factorization core of
`ore_algebra` (`src/ore_algebra/analytic/factorization.py`).

Differential operators with coefficients in a differential field `F`
(in the source, `F = K(z)` for a number field `K`, with the derivation
`d/dz`) are embedded as lists of coefficients: the list `[a0, a1, ..., ar]`
stands for the operator `a0 + a1*D + ... + ar*D^r`.  The Ore relation
`D*a = a*D + der a` drives the multiplication.  All external layers used
by `factorization.py` (Sage polynomial arithmetic, the monodromy engine,
`linear_algebra`, the guessing module) are modelled as oracle inputs,
while every function defined in `factorization.py` itself is translated
from its source.
-/

namespace OreFact

variable {F : Type} [Field F] [DecidableEq F]

/-- Coefficient of `D^n` in the operator represented by the list `P`. -/
def coeff (P : List F) (n : ℕ) : F := P.getD n 0

/-- Extensional equality of differential operators: two coefficient lists
represent the same operator iff all coefficients agree. -/
def Eqv (P Q : List F) : Prop := ∀ n, coeff P n = coeff Q n

/-- Addition of operators (pointwise on coefficients, with padding). -/
def addOp : List F → List F → List F
  | [], Q => Q
  | P, [] => P
  | p :: ps, q :: qs => (p + q) :: addOp ps qs

/-- Left multiplication of an operator by an element of `F` (an order-0
operator): acts coefficientwise. -/
def cmul (a : F) (P : List F) : List F := P.map (a * ·)

/-- Left multiplication by the derivation symbol `D`:
`D * (sum q_n D^n) = sum (der q_n) D^n + sum q_n D^(n+1)`. -/
def dmul (der : F → F) (Q : List F) : List F := addOp (Q.map der) (0 :: Q)

/-- Ore multiplication of differential operators:
`(a + P*D) * Q = a*Q + P*(D*Q)` on coefficient lists. -/
def mulOp (der : F → F) : List F → List F → List F
  | [], _ => []
  | a :: as, Q => addOp (cmul a Q) (mulOp der as (dmul der Q))

/-- The operator `1`. -/
def oneOp : List F := [1]

/-- An element of `F` viewed as an order-0 operator. -/
def constOp (a : F) : List F := [a]

/-- The operator `-D`, as it appears in `myadjoint`. -/
def negD : List F := [0, -1]

/-- Powers `(-D)^i` used by `myadjoint`. -/
def negDpow (der : F → F) : ℕ → List F
  | 0 => oneOp
  | k + 1 => mulOp der negD (negDpow der k)

/-- Helper for `myadjoint`: the sum `sum_{j} (-D)^(i+j) * p_j` over the
coefficient list, mirroring `enumerate(dop.list())` in the source. -/
def adjointAux (der : F → F) : ℕ → List F → List F
  | _, [] => []
  | i, p :: ps => addOp (mulOp der (negDpow der i) (constOp p)) (adjointAux der (i + 1) ps)

/-- The formal adjoint, from the source:
`myadjoint = lambda dop: sum((-dop.parent().gen())**i*pi for i, pi in enumerate(dop.list()))`. -/
def myadjoint (der : F → F) (dop : List F) : List F := adjointAux der 0 dop

theorem coeff_nil (n : ℕ) : coeff ([] : List F) n = 0 := by
  simp [coeff]

theorem coeff_cons_zero (a : F) (P : List F) : coeff (a :: P) 0 = a := rfl

theorem coeff_cons_succ (a : F) (P : List F) (n : ℕ) :
    coeff (a :: P) (n + 1) = coeff P n := rfl

theorem addOp_nil_left (Q : List F) : addOp ([] : List F) Q = Q := by
  cases Q <;> rfl

theorem addOp_nil_right (P : List F) : addOp P ([] : List F) = P := by
  cases P <;> rfl

theorem coeff_constOp_zero (c : F) : coeff (constOp c) 0 = c := rfl

theorem coeff_constOp_succ (c : F) (n : ℕ) : coeff (constOp c) (n + 1) = 0 := rfl

theorem coeff_addOp (P Q : List F) (n : ℕ) :
    coeff (addOp P Q) n = coeff P n + coeff Q n := by
  induction P generalizing Q n with
  | nil => simp [addOp, coeff_nil]
  | cons p ps ih =>
    cases Q with
    | nil => simp [addOp, coeff_nil]
    | cons q qs =>
      cases n with
      | zero => simp [addOp, coeff_cons_zero]
      | succ m => simpa [addOp, coeff_cons_succ] using ih qs m

theorem coeff_cmul (a : F) (P : List F) (n : ℕ) :
    coeff (cmul a P) n = a * coeff P n := by
  induction P generalizing n with
  | nil => simp [cmul, coeff_nil]
  | cons p ps ih =>
    cases n with
    | zero => simp [cmul, coeff_cons_zero]
    | succ m => simpa [cmul, coeff_cons_succ] using ih m

theorem coeff_dmul (der : F → F) (hd0 : der 0 = 0) (Q : List F) (n : ℕ) :
    coeff (dmul der Q) n = der (coeff Q n) + coeff (0 :: Q) n := by
  rw [dmul, coeff_addOp]
  congr 1
  induction Q generalizing n with
  | nil => simp [coeff_nil, hd0]
  | cons q qs ih =>
    cases n with
    | zero => simp [coeff_cons_zero]
    | succ m => simpa [coeff_cons_succ] using ih m

theorem Eqv.refl (P : List F) : Eqv P P := fun _ => rfl

theorem Eqv.symm {P Q : List F} (h : Eqv P Q) : Eqv Q P := fun n => (h n).symm

theorem Eqv.trans {P Q R : List F} (h1 : Eqv P Q) (h2 : Eqv Q R) : Eqv P R :=
  fun n => (h1 n).trans (h2 n)

theorem eqv_addOp_congr {P P' Q Q' : List F} (hP : Eqv P P') (hQ : Eqv Q Q') :
    Eqv (addOp P Q) (addOp P' Q') := by
  intro n
  rw [coeff_addOp, coeff_addOp, hP n, hQ n]

theorem eqv_addOp_comm (P Q : List F) : Eqv (addOp P Q) (addOp Q P) := by
  intro n
  rw [coeff_addOp, coeff_addOp, add_comm]

theorem eqv_addOp_assoc (P Q R : List F) :
    Eqv (addOp (addOp P Q) R) (addOp P (addOp Q R)) := by
  intro n
  simp [coeff_addOp, add_assoc]

theorem eqv_addOp_nil (P : List F) : Eqv (addOp P []) P := by
  cases P <;> exact fun n => rfl

theorem eqv_nil_of_coeff_zero {P : List F} (h : ∀ n, coeff P n = 0) :
    Eqv P ([] : List F) := by
  intro n
  rw [h n, coeff_nil]

theorem der_zero {der : F → F} (hadd : ∀ a b, der (a + b) = der a + der b) :
    der 0 = 0 := by
  have h := hadd 0 0
  rw [add_zero] at h
  exact self_eq_add_left.mp h

theorem der_one {der : F → F}
    (hmul : ∀ a b, der (a * b) = der a * b + a * der b) : der 1 = 0 := by
  have h := hmul 1 1
  simp only [mul_one, one_mul] at h
  exact self_eq_add_left.mp h

theorem der_neg_one {der : F → F} (hadd : ∀ a b, der (a + b) = der a + der b)
    (hmul : ∀ a b, der (a * b) = der a * b + a * der b) : der (-1) = 0 := by
  have h := hadd (-1) 1
  rw [neg_add_cancel, der_zero hadd, der_one hmul, add_zero] at h
  exact h.symm

theorem coeff_mulOp_cons (der : F → F) (a : F) (as Q : List F) (n : ℕ) :
    coeff (mulOp der (a :: as) Q) n
      = a * coeff Q n + coeff (mulOp der as (dmul der Q)) n := by
  simp [mulOp, coeff_addOp, coeff_cmul]

theorem coeff_zero_dmul {der : F → F} (hd0 : der 0 = 0) {Q : List F}
    (hQ : ∀ n, coeff Q n = 0) : ∀ n, coeff (dmul der Q) n = 0 := by
  intro n
  rw [coeff_dmul der hd0, hQ n, hd0]
  cases n with
  | zero => simp [coeff_cons_zero]
  | succ m => simp [coeff_cons_succ, hQ m]

theorem mulOp_coeff_zero_right {der : F → F} (hd0 : der 0 = 0) :
    ∀ (P : List F) {Q : List F}, (∀ n, coeff Q n = 0) →
      ∀ n, coeff (mulOp der P Q) n = 0 := by
  intro P
  induction P with
  | nil => intro Q _ n; simp [mulOp, coeff_nil]
  | cons a as ih =>
    intro Q hQ n
    rw [coeff_mulOp_cons, hQ n, mul_zero, zero_add]
    exact ih (coeff_zero_dmul hd0 hQ) n

theorem mulOp_coeff_zero_left (der : F → F) :
    ∀ {P : List F}, (∀ n, coeff P n = 0) →
      ∀ (Q : List F) (n : ℕ), coeff (mulOp der P Q) n = 0 := by
  intro P
  induction P with
  | nil => intro _ Q n; simp [mulOp, coeff_nil]
  | cons a as ih =>
    intro hP Q n
    rw [coeff_mulOp_cons]
    have ha : a = 0 := hP 0
    have has : ∀ m, coeff as m = 0 := fun m => hP (m + 1)
    rw [ha, zero_mul, zero_add]
    exact ih has (dmul der Q) n

theorem dmul_congr {der : F → F} (hd0 : der 0 = 0) {Q Q' : List F}
    (h : Eqv Q Q') : Eqv (dmul der Q) (dmul der Q') := by
  intro n
  rw [coeff_dmul der hd0, coeff_dmul der hd0, h n]
  cases n with
  | zero => simp [coeff_cons_zero]
  | succ m => simp [coeff_cons_succ, h m]

theorem mulOp_congr_left (der : F → F) :
    ∀ {P P' : List F}, Eqv P P' → ∀ (Q : List F),
      Eqv (mulOp der P Q) (mulOp der P' Q) := by
  intro P
  induction P with
  | nil =>
    intro P' h Q n
    have h0 : ∀ m, coeff P' m = 0 := fun m => ((h m).symm.trans (coeff_nil m))
    have : coeff (mulOp der P' Q) n = 0 := mulOp_coeff_zero_left der h0 Q n
    simp [mulOp, coeff_nil, this]
  | cons a as ih =>
    intro P' h Q
    cases P' with
    | nil =>
      intro n
      have h0 : ∀ m, coeff (a :: as) m = 0 := fun m => (h m).trans (coeff_nil m)
      rw [mulOp_coeff_zero_left der h0 Q n]
      simp [mulOp, coeff_nil]
    | cons b bs =>
      intro n
      have hab : a = b := h 0
      have htl : Eqv as bs := fun m => h (m + 1)
      rw [coeff_mulOp_cons, coeff_mulOp_cons, hab, ih htl (dmul der Q) n]

theorem mulOp_congr_right {der : F → F} (hd0 : der 0 = 0) :
    ∀ (P : List F) {Q Q' : List F}, Eqv Q Q' →
      Eqv (mulOp der P Q) (mulOp der P Q') := by
  intro P
  induction P with
  | nil => intro Q Q' _ n; rfl
  | cons a as ih =>
    intro Q Q' h n
    rw [coeff_mulOp_cons, coeff_mulOp_cons, h n, ih (dmul_congr hd0 h) n]

theorem mulOp_congr {der : F → F} (hd0 : der 0 = 0) {P P' Q Q' : List F}
    (h1 : Eqv P P') (h2 : Eqv Q Q') :
    Eqv (mulOp der P Q) (mulOp der P' Q') :=
  Eqv.trans (mulOp_congr_left der h1 Q) (mulOp_congr_right hd0 P' h2)

theorem mulOp_addOp_left (der : F → F) :
    ∀ (P1 P2 Q : List F),
      Eqv (mulOp der (addOp P1 P2) Q)
          (addOp (mulOp der P1 Q) (mulOp der P2 Q)) := by
  intro P1
  induction P1 with
  | nil => intro P2 Q n; simp [addOp, mulOp, coeff_addOp, coeff_nil]
  | cons p1 ps1 ih =>
    intro P2 Q
    cases P2 with
    | nil =>
      intro n
      show coeff (mulOp der (addOp (p1 :: ps1) []) Q) n = _
      rw [coeff_addOp]
      simp [addOp, mulOp, coeff_nil]
    | cons p2 ps2 =>
      intro n
      show coeff (mulOp der ((p1 + p2) :: addOp ps1 ps2) Q) n = _
      rw [coeff_mulOp_cons, coeff_addOp, coeff_mulOp_cons, coeff_mulOp_cons,
        ih ps2 (dmul der Q) n, coeff_addOp]
      ring

theorem dmul_addOp {der : F → F} (hadd : ∀ a b, der (a + b) = der a + der b)
    (P Q : List F) :
    Eqv (dmul der (addOp P Q)) (addOp (dmul der P) (dmul der Q)) := by
  have hd0 := der_zero hadd
  intro n
  rw [coeff_addOp, coeff_dmul der hd0, coeff_dmul der hd0, coeff_dmul der hd0,
    coeff_addOp, hadd]
  cases n with
  | zero => simp [coeff_cons_zero]
  | succ m => simp [coeff_cons_succ, coeff_addOp]; ring

theorem mulOp_addOp_right {der : F → F}
    (hadd : ∀ a b, der (a + b) = der a + der b) :
    ∀ (P A B : List F),
      Eqv (mulOp der P (addOp A B)) (addOp (mulOp der P A) (mulOp der P B)) := by
  have hd0 := der_zero hadd
  intro P
  induction P with
  | nil => intro A B n; simp [mulOp, coeff_addOp, coeff_nil]
  | cons a as ih =>
    intro A B n
    have h1 := mulOp_congr_right hd0 as (dmul_addOp hadd A B) n
    have h2 := ih (dmul der A) (dmul der B) n
    simp only [coeff_mulOp_cons, coeff_addOp]
    rw [h1, h2, coeff_addOp]
    ring

theorem mulOp_constOp (der : F → F) (c : F) (Q : List F) :
    Eqv (mulOp der (constOp c) Q) (cmul c Q) := by
  intro n
  show coeff (mulOp der [c] Q) n = _
  rw [coeff_mulOp_cons]
  simp [mulOp, coeff_nil, coeff_cmul]

theorem mulOp_cmul_left (der : F → F) :
    ∀ (P : List F) (c : F) (Q : List F),
      Eqv (mulOp der (cmul c P) Q) (cmul c (mulOp der P Q)) := by
  intro P
  induction P with
  | nil => intro c Q n; simp [cmul, mulOp, coeff_nil]
  | cons b bs ih =>
    intro c Q n
    show coeff (mulOp der ((c * b) :: cmul c bs) Q) n = _
    rw [coeff_mulOp_cons, coeff_cmul, coeff_mulOp_cons, ih c (dmul der Q) n,
      coeff_cmul]
    ring

theorem dmul_cmul {der : F → F}
    (hmul : ∀ a b, der (a * b) = der a * b + a * der b)
    (hd0 : der 0 = 0) (c : F) (Q : List F) :
    Eqv (dmul der (cmul c Q)) (addOp (cmul (der c) Q) (cmul c (dmul der Q))) := by
  intro n
  rw [coeff_addOp, coeff_cmul, coeff_dmul der hd0, coeff_cmul, coeff_cmul,
    coeff_dmul der hd0, hmul]
  cases n with
  | zero => simp [coeff_cons_zero]
  | succ m => simp [coeff_cons_succ, coeff_cmul]; ring

theorem dmul_mulOp {der : F → F}
    (hadd : ∀ a b, der (a + b) = der a + der b)
    (hmul : ∀ a b, der (a * b) = der a * b + a * der b) :
    ∀ (Q S : List F),
      Eqv (mulOp der (dmul der Q) S) (dmul der (mulOp der Q S)) := by
  have hd0 := der_zero hadd
  intro Q
  induction Q with
  | nil =>
    intro S n
    have h1 : ∀ m, coeff (dmul der ([] : List F)) m = 0 := by
      intro m
      exact coeff_zero_dmul hd0 (fun k => coeff_nil k) m
    rw [mulOp_coeff_zero_left der h1 S n]
    have h2 : ∀ m, coeff (mulOp der ([] : List F) S) m = 0 := by
      intro m; simp [mulOp, coeff_nil]
    exact (coeff_zero_dmul hd0 h2 n).symm
  | cons q qs ih =>
    intro S n
    -- dmul (q :: qs) ~ (der q) :: addOp (constOp q) (dmul qs)
    have hdec : Eqv (dmul der (q :: qs))
        ((der q) :: addOp (constOp q) (dmul der qs)) := by
      intro m
      rw [coeff_dmul der hd0]
      cases m with
      | zero => simp [coeff_cons_zero, coeff_cons_succ]
      | succ k =>
        rw [coeff_cons_succ, coeff_cons_succ, coeff_cons_succ, coeff_addOp,
          coeff_dmul der hd0]
        cases k with
        | zero =>
          rw [coeff_constOp_zero, coeff_cons_zero, coeff_cons_zero]
          ring
        | succ j =>
          rw [coeff_constOp_succ, coeff_cons_succ, coeff_cons_succ]
          ring
    have step1 := mulOp_congr_left der hdec S n
    rw [step1, coeff_mulOp_cons]
    have step2 := mulOp_addOp_left der (constOp q) (dmul der qs) (dmul der S) n
    rw [step2, coeff_addOp]
    have step3 := mulOp_constOp der q (dmul der S) n
    rw [step3]
    have step4 := ih (dmul der S) n
    rw [step4]
    -- right-hand side
    have hrhs : Eqv (mulOp der (q :: qs) S)
        (addOp (cmul q S) (mulOp der qs (dmul der S))) := by
      intro m; rw [coeff_mulOp_cons, coeff_addOp, coeff_cmul]
    have step5 := dmul_congr hd0 hrhs n
    rw [step5]
    have step6 := dmul_addOp hadd (cmul q S) (mulOp der qs (dmul der S)) n
    rw [step6, coeff_addOp]
    have step7 := dmul_cmul hmul hd0 q S n
    rw [step7, coeff_addOp, coeff_cmul, coeff_cmul]
    ring

theorem mulOp_assoc {der : F → F}
    (hadd : ∀ a b, der (a + b) = der a + der b)
    (hmul : ∀ a b, der (a * b) = der a * b + a * der b) :
    ∀ (P Q S : List F),
      Eqv (mulOp der (mulOp der P Q) S) (mulOp der P (mulOp der Q S)) := by
  have hd0 := der_zero hadd
  intro P
  induction P with
  | nil => intro Q S n; simp [mulOp, coeff_nil]
  | cons a as ih =>
    intro Q S n
    have h0 : Eqv (mulOp der (a :: as) Q)
        (addOp (cmul a Q) (mulOp der as (dmul der Q))) := by
      intro m; rw [coeff_mulOp_cons, coeff_addOp, coeff_cmul]
    rw [mulOp_congr_left der h0 S n,
      mulOp_addOp_left der (cmul a Q) (mulOp der as (dmul der Q)) S n,
      coeff_addOp, mulOp_cmul_left der Q a S n, coeff_cmul,
      ih (dmul der Q) S n,
      mulOp_congr_right hd0 as (dmul_mulOp hadd hmul Q S) n,
      coeff_mulOp_cons]

/-- The operator `D^k`. -/
def dpowOp (k : ℕ) : List F := List.replicate k 0 ++ [1]

/-- The monomial operator `c * D^k`. -/
def monomOp (k : ℕ) (c : F) : List F := List.replicate k 0 ++ [c]

theorem coeff_monomOp (k : ℕ) (c : F) (n : ℕ) :
    coeff (monomOp k c) n = if n = k then c else 0 := by
  induction k generalizing n with
  | zero =>
    cases n with
    | zero => rfl
    | succ m => simp [monomOp, coeff, List.getD]
  | succ j ih =>
    cases n with
    | zero => simp [monomOp, List.replicate_succ, coeff_cons_zero]
    | succ m =>
      have h : monomOp (j + 1) c = (0 : F) :: monomOp j c := by
        simp [monomOp, List.replicate_succ]
      rw [h, coeff_cons_succ, ih m]
      simp [Nat.succ_inj]

theorem coeff_dpowOp (k n : ℕ) :
    coeff (dpowOp k : List F) n = if n = k then 1 else 0 := by
  have h : (dpowOp k : List F) = monomOp k 1 := rfl
  rw [h, coeff_monomOp]

theorem coeff_replicate_append (k : ℕ) (X : List F) (n : ℕ) :
    coeff (List.replicate k (0 : F) ++ X) n
      = if n < k then 0 else coeff X (n - k) := by
  induction k generalizing n with
  | zero => simp
  | succ j ih =>
    cases n with
    | zero => simp [List.replicate_succ, coeff_cons_zero]
    | succ m =>
      rw [List.replicate_succ, List.cons_append, coeff_cons_succ, ih m]
      simp [Nat.succ_lt_succ_iff, Nat.succ_sub_succ]

theorem dmul_dpow {der : F → F}
    (hadd : ∀ a b, der (a + b) = der a + der b)
    (hmul : ∀ a b, der (a * b) = der a * b + a * der b) (k : ℕ) :
    Eqv (dmul der (dpowOp k)) (dpowOp (k + 1)) := by
  have hd0 := der_zero hadd
  have hd1 := der_one hmul
  intro n
  rw [coeff_dmul der hd0, coeff_dpowOp, coeff_dpowOp]
  cases n with
  | zero =>
    rw [coeff_cons_zero]
    by_cases hk : (0 : ℕ) = k
    · subst hk
      simp [hd1]
    · simp [if_neg hk, hd0]
  | succ m =>
    rw [coeff_cons_succ, coeff_dpowOp]
    by_cases h1 : m + 1 = k <;> by_cases h2 : m = k <;>
      simp [h1, h2, hd0, hd1]

theorem mulOp_dpow_right {der : F → F}
    (hadd : ∀ a b, der (a + b) = der a + der b)
    (hmul : ∀ a b, der (a * b) = der a * b + a * der b) :
    ∀ (P : List F) (k : ℕ),
      Eqv (mulOp der P (dpowOp k)) (List.replicate k 0 ++ P) := by
  have hd0 := der_zero hadd
  intro P
  induction P with
  | nil =>
    intro k n
    rw [coeff_replicate_append]
    simp [mulOp, coeff_nil]
  | cons a as ih =>
    intro k n
    rw [coeff_mulOp_cons,
      mulOp_congr_right hd0 as (dmul_dpow hadd hmul k) n,
      ih (k + 1) n, coeff_dpowOp, coeff_replicate_append,
      coeff_replicate_append]
    rcases lt_trichotomy n k with h | h | h
    · have h1 : n ≠ k := Nat.ne_of_lt h
      have h2 : n < k + 1 := Nat.lt_succ_of_lt h
      simp [h1, h2, h]
    · subst h
      simp [coeff_cons_zero]
    · have h1 : n ≠ k := (Nat.ne_of_lt h).symm
      have h2 : ¬ n < k + 1 := by omega
      have h3 : ¬ n < k := by omega
      have h4 : n - k = (n - (k + 1)) + 1 := by omega
      simp [h1, h2, h3, h4, coeff_cons_succ]

theorem mulOp_oneOp_right {der : F → F}
    (hadd : ∀ a b, der (a + b) = der a + der b)
    (hmul : ∀ a b, der (a * b) = der a * b + a * der b) (P : List F) :
    Eqv (mulOp der P oneOp) P := by
  have h := mulOp_dpow_right hadd hmul P 0
  simpa [dpowOp] using h

theorem oneOp_mulOp (der : F → F) (Q : List F) : Eqv (mulOp der oneOp Q) Q := by
  intro n
  show coeff (mulOp der [1] Q) n = _
  rw [coeff_mulOp_cons]
  simp [mulOp, coeff_nil]

/-- Coefficients of `D^k * R` above `ordOp R + k` vanish, and the top one is
the top coefficient of `R`.  Stated with an explicit bound `q` on `R`. -/
theorem mulOp_dpow_left_coeff {der : F → F} (hd0 : der 0 = 0) :
    ∀ (k : ℕ) {R : List F} {q : ℕ}, (∀ m, m > q → coeff R m = 0) →
      (∀ n, n > q + k → coeff (mulOp der (dpowOp k) R) n = 0) ∧
        coeff (mulOp der (dpowOp k) R) (q + k) = coeff R q := by
  intro k
  induction k with
  | zero =>
    intro R q hR
    have he : (dpowOp 0 : List F) = oneOp := rfl
    constructor
    · intro n hn
      rw [he, oneOp_mulOp der R n]
      exact hR n (by simpa using hn)
    · rw [he, oneOp_mulOp der R (q + 0)]
      rfl
  | succ j ih =>
    intro R q hR
    have hsplit : (dpowOp (j + 1) : List F) = (0 : F) :: dpowOp j := by
      simp [dpowOp, List.replicate_succ]
    have hdR : ∀ m, m > q + 1 → coeff (dmul der R) m = 0 := by
      intro m hm
      rw [coeff_dmul der hd0, hR m (by omega)]
      cases m with
      | zero => omega
      | succ i => simp [hd0, coeff_cons_succ, hR i (by omega)]
    have htopdR : coeff (dmul der R) (q + 1) = coeff R q := by
      rw [coeff_dmul der hd0, hR (q + 1) (by omega), hd0, coeff_cons_succ]
      ring
    have hstep : ∀ n, coeff (mulOp der (dpowOp (j + 1)) R) n
        = coeff (mulOp der (dpowOp j) (dmul der R)) n := by
      intro n
      rw [hsplit, coeff_mulOp_cons]
      ring
    obtain ⟨hz, ht⟩ := ih hdR
    constructor
    · intro n hn
      rw [hstep n]
      exact hz n (by omega)
    · have harith : q + (j + 1) = (q + 1) + j := by omega
      rw [harith, hstep ((q + 1) + j), ht, htopdR]

theorem mulOp_monom_coeff {der : F → F} (hd0 : der 0 = 0)
    {R : List F} {q : ℕ} (hR : ∀ m, m > q → coeff R m = 0) (k : ℕ) (c : F) :
    (∀ n, n > q + k → coeff (mulOp der (monomOp k c) R) n = 0) ∧
      coeff (mulOp der (monomOp k c) R) (q + k) = c * coeff R q := by
  have hmc : Eqv (monomOp k c) (cmul c (dpowOp k : List F)) := by
    intro n
    rw [coeff_monomOp, coeff_cmul, coeff_dpowOp]
    by_cases h : n = k <;> simp [h]
  have hconv : ∀ n, coeff (mulOp der (monomOp k c) R) n
      = c * coeff (mulOp der (dpowOp k) R) n := by
    intro n
    rw [mulOp_congr_left der hmc R n, mulOp_cmul_left der (dpowOp k) c R n,
      coeff_cmul]
  obtain ⟨hz, ht⟩ := mulOp_dpow_left_coeff hd0 k hR
  constructor
  · intro n hn
    rw [hconv n, hz n hn, mul_zero]
  · rw [hconv (q + k), ht]

/-- Normal form: remove trailing zero coefficients. -/
def trimOp : List F → List F
  | [] => []
  | a :: as =>
    let t := trimOp as
    if t = [] then (if a = 0 then [] else [a]) else a :: t

/-- Test for the zero operator. -/
def isZeroOp (P : List F) : Bool := decide (trimOp P = [])

/-- The order of a (nonzero) operator; junk value 0 on the zero operator. -/
def ordOp (P : List F) : ℕ := (trimOp P).length - 1

/-- Leading coefficient. -/
def lcOp (P : List F) : F := coeff P (ordOp P)

/-- Equality test for operators, as in the source comparisons `R != dop`. -/
def opEqB (P Q : List F) : Bool := decide (trimOp P = trimOp Q)

theorem trimOp_cons (a : F) (as : List F) :
    trimOp (a :: as)
      = if trimOp as = [] then (if a = 0 then [] else [a])
        else a :: trimOp as := rfl

theorem eqv_trimOp : ∀ P : List F, Eqv (trimOp P) P := by
  intro P
  induction P with
  | nil => exact Eqv.refl []
  | cons a as ih =>
    by_cases h1 : trimOp as = []
    · have hz : ∀ m, coeff as m = 0 := by
        intro m
        have h2 := ih m
        rw [h1, coeff_nil] at h2
        exact h2.symm
      by_cases h2 : a = 0
      · have hred : trimOp (a :: as) = [] := by
          rw [trimOp_cons, h1]
          simp [h2]
        intro n
        rw [hred]
        cases n with
        | zero => simp [coeff_nil, coeff_cons_zero, h2]
        | succ m => simp [coeff_nil, coeff_cons_succ, hz m]
      · have hred : trimOp (a :: as) = [a] := by
          rw [trimOp_cons, h1]
          simp [h2]
        intro n
        rw [hred]
        cases n with
        | zero => rfl
        | succ m =>
          rw [coeff_cons_succ, coeff_cons_succ, coeff_nil, hz m]
    · have hred : trimOp (a :: as) = a :: trimOp as := by
        rw [trimOp_cons]
        simp [h1]
      intro n
      rw [hred]
      cases n with
      | zero => rfl
      | succ m => rw [coeff_cons_succ, coeff_cons_succ, ih m]

theorem isZeroOp_iff (P : List F) :
    isZeroOp P = true ↔ ∀ n, coeff P n = 0 := by
  constructor
  · intro h n
    have h1 : trimOp P = [] := by simpa [isZeroOp] using h
    have h2 := eqv_trimOp P n
    rw [h1, coeff_nil] at h2
    exact h2.symm
  · intro h
    simp only [isZeroOp, decide_eq_true_eq]
    induction P with
    | nil => rfl
    | cons a as ih =>
      have hz : ∀ m, coeff as m = 0 := fun m => h (m + 1)
      have ha : a = 0 := h 0
      rw [trimOp_cons]
      simp [ih hz, ha]

theorem coeff_zero_of_ge_trim_length (P : List F) :
    ∀ n, (trimOp P).length ≤ n → coeff P n = 0 := by
  intro n hn
  have h := (eqv_trimOp P n).symm
  rw [h]
  exact List.getD_eq_default _ _ hn

theorem coeff_zero_of_gt_ordOp (P : List F) :
    ∀ n, ordOp P < n → coeff P n = 0 := by
  intro n hn
  apply coeff_zero_of_ge_trim_length
  rcases Nat.eq_zero_or_pos (trimOp P).length with h | h
  · omega
  · have : ordOp P = (trimOp P).length - 1 := rfl
    omega

theorem trim_last_ne_zero :
    ∀ P : List F, trimOp P ≠ [] →
      coeff (trimOp P) ((trimOp P).length - 1) ≠ 0 := by
  intro P
  induction P with
  | nil => intro h; exact absurd rfl h
  | cons a as ih =>
    intro h
    by_cases h1 : trimOp as = []
    · by_cases h2 : a = 0
      · have hred : trimOp (a :: as) = [] := by
          rw [trimOp_cons, h1]
          simp [h2]
        exact absurd hred h
      · have hred : trimOp (a :: as) = [a] := by
          rw [trimOp_cons, h1]
          simp [h2]
        rw [hred]
        simpa [coeff] using h2
    · have hred : trimOp (a :: as) = a :: trimOp as := by
        rw [trimOp_cons]
        simp [h1]
      rw [hred]
      have hpos : 0 < (trimOp as).length := List.length_pos.mpr h1
      have hl2 : (a :: trimOp as).length - 1 = ((trimOp as).length - 1) + 1 := by
        simp only [List.length_cons]
        omega
      rw [hl2, coeff_cons_succ]
      exact ih h1

theorem lcOp_ne_zero {P : List F} (h : isZeroOp P = false) : lcOp P ≠ 0 := by
  have h1 : trimOp P ≠ [] := by
    intro hc
    rw [isZeroOp, hc] at h
    simp at h
  have h2 := trim_last_ne_zero P h1
  have h3 := eqv_trimOp P ((trimOp P).length - 1)
  rw [h3] at h2
  exact h2

theorem ordOp_lt_of_high_zero {P : List F} {m : ℕ}
    (hz : isZeroOp P = false) (h : ∀ n, m ≤ n → coeff P n = 0) :
    ordOp P < m := by
  by_contra hc
  push_neg at hc
  exact lcOp_ne_zero hz (h (ordOp P) hc)

/-- One step of Euclidean right division, with explicit fuel.  Mirrors the
`%` and `//` operations of the operator algebra used by the source. -/
def divmodAux (der : F → F) : ℕ → List F → List F → List F × List F
  | 0, L, _ => ([], L)
  | fuel + 1, L, R =>
    if isZeroOp L = true ∨ ordOp L < ordOp R then ([], L)
    else
      let k := ordOp L - ordOp R
      let c := lcOp L / lcOp R
      let L2 := addOp L (cmul (-1) (mulOp der (monomOp k c) R))
      let qr := divmodAux der fuel L2 R
      (addOp (monomOp k c) qr.1, qr.2)

/-- Right quotient `L // R`. -/
def rquo (der : F → F) (L R : List F) : List F :=
  (divmodAux der (ordOp L + 1) L R).1

/-- Right remainder `L % R`. -/
def rrem (der : F → F) (L R : List F) : List F :=
  (divmodAux der (ordOp L + 1) L R).2

/-- The verification test `dop % R == 0` from the source. -/
def remZeroB (der : F → F) (L R : List F) : Bool := isZeroOp (rrem der L R)

/-- The reduction step of the division: `L - (lc L / lc R) * D^(ord L - ord R) * R`. -/
def divStep (der : F → F) (L R : List F) : List F :=
  addOp L (cmul (-1)
    (mulOp der (monomOp (ordOp L - ordOp R) (lcOp L / lcOp R)) R))

theorem divmodAux_zero_fuel (der : F → F) (L R : List F) :
    divmodAux der 0 L R = ([], L) := rfl

theorem divmodAux_succ (der : F → F) (f : ℕ) (L R : List F) :
    divmodAux der (f + 1) L R
      = if isZeroOp L = true ∨ ordOp L < ordOp R then ([], L)
        else (addOp (monomOp (ordOp L - ordOp R) (lcOp L / lcOp R))
                (divmodAux der f (divStep der L R) R).1,
              (divmodAux der f (divStep der L R) R).2) := rfl

theorem divmodAux_of_zeroOp (der : F → F) (fuel : ℕ) {L : List F} (R : List F)
    (h : isZeroOp L = true) : divmodAux der fuel L R = ([], L) := by
  cases fuel with
  | zero => rfl
  | succ f =>
    rw [divmodAux_succ]
    simp [h]

theorem divmodAux_spec (der : F → F) :
    ∀ (fuel : ℕ) (L R : List F),
      Eqv L (addOp (mulOp der (divmodAux der fuel L R).1 R)
                   (divmodAux der fuel L R).2) := by
  intro fuel
  induction fuel with
  | zero =>
    intro L R n
    rw [divmodAux_zero_fuel]
    simp [coeff_addOp, mulOp, coeff_nil]
  | succ f ih =>
    intro L R n
    rw [divmodAux_succ]
    by_cases hbr : isZeroOp L = true ∨ ordOp L < ordOp R
    · simp only [if_pos hbr]
      simp [coeff_addOp, mulOp, coeff_nil]
    · simp only [if_neg hbr]
      have hrec := ih (divStep der L R) R n
      have hL : coeff L n = coeff (divStep der L R) n
          + coeff (mulOp der (monomOp (ordOp L - ordOp R) (lcOp L / lcOp R)) R) n := by
        rw [divStep, coeff_addOp, coeff_cmul]
        ring
      rw [hL, hrec, coeff_addOp, coeff_addOp,
        mulOp_addOp_left der (monomOp (ordOp L - ordOp R) (lcOp L / lcOp R))
          (divmodAux der f (divStep der L R) R).1 R n,
        coeff_addOp]
      ring

theorem divStep_high_zero {der : F → F} (hd0 : der 0 = 0) {L R : List F}
    (hLnz : isZeroOp L = false) (hRnz : isZeroOp R = false)
    (hord : ordOp R ≤ ordOp L) :
    ∀ n, ordOp L ≤ n → coeff (divStep der L R) n = 0 := by
  have hRB : ∀ m, m > ordOp R → coeff R m = 0 := fun m hm =>
    coeff_zero_of_gt_ordOp R m hm
  obtain ⟨hz, ht⟩ := mulOp_monom_coeff hd0 hRB (ordOp L - ordOp R)
    (lcOp L / lcOp R)
  have hqk : ordOp R + (ordOp L - ordOp R) = ordOp L := by omega
  intro n hn
  rw [divStep, coeff_addOp, coeff_cmul]
  rcases Nat.eq_or_lt_of_le hn with he | hlt
  · subst he
    have h1 : coeff (mulOp der (monomOp (ordOp L - ordOp R)
        (lcOp L / lcOp R)) R) (ordOp L) = lcOp L := by
      have h2 := ht
      rw [hqk] at h2
      have h3 : coeff R (ordOp R) = lcOp R := rfl
      rw [h2, h3, div_mul_cancel₀ (lcOp L) (lcOp_ne_zero hRnz)]
    have h2 : coeff L (ordOp L) = lcOp L := rfl
    rw [h1, h2]
    ring
  · have h1 : coeff (mulOp der (monomOp (ordOp L - ordOp R)
        (lcOp L / lcOp R)) R) n = 0 := by
      apply hz
      omega
    have h2 : coeff L n = 0 := coeff_zero_of_gt_ordOp L n hlt
    rw [h1, h2]
    ring

theorem divmodAux_rem_small {der : F → F} (hd0 : der 0 = 0) :
    ∀ (fuel : ℕ) (L R : List F), isZeroOp R = false → ordOp L < fuel →
      isZeroOp (divmodAux der fuel L R).2 = true ∨
        ordOp (divmodAux der fuel L R).2 < ordOp R := by
  intro fuel
  induction fuel with
  | zero => intro L R _ h; omega
  | succ f ih =>
    intro L R hR hfuel
    rw [divmodAux_succ]
    by_cases hbr : isZeroOp L = true ∨ ordOp L < ordOp R
    · simp only [if_pos hbr]
      exact hbr
    · simp only [if_neg hbr]
      push_neg at hbr
      obtain ⟨hLnz, hord⟩ := hbr
      have hLnz2 : isZeroOp L = false := by
        cases h : isZeroOp L
        · rfl
        · exact absurd h hLnz
      have hhigh := divStep_high_zero hd0 hLnz2 hR hord
      cases hz2 : isZeroOp (divStep der L R) with
      | true =>
        rw [divmodAux_of_zeroOp der f R hz2]
        exact Or.inl hz2
      | false =>
        have hlt : ordOp (divStep der L R) < ordOp L :=
          ordOp_lt_of_high_zero hz2 hhigh
        exact ih (divStep der L R) R hR (by omega)

theorem rquo_rrem_spec (der : F → F) (L R : List F) :
    Eqv L (addOp (mulOp der (rquo der L R) R) (rrem der L R)) :=
  divmodAux_spec der (ordOp L + 1) L R

theorem rrem_small {der : F → F} (hd0 : der 0 = 0) (L : List F) {R : List F}
    (hR : isZeroOp R = false) :
    isZeroOp (rrem der L R) = true ∨ ordOp (rrem der L R) < ordOp R :=
  divmodAux_rem_small hd0 (ordOp L + 1) L R hR (by omega)

/-- If the remainder test `L % R == 0` succeeds then `R` right-divides `L`
exactly: `L = (L // R) * R`. -/
theorem remZeroB_divides (der : F → F) {L R : List F}
    (h : remZeroB der L R = true) : Eqv L (mulOp der (rquo der L R) R) := by
  intro n
  have h1 := rquo_rrem_spec der L R n
  have h2 : coeff (rrem der L R) n = 0 := (isZeroOp_iff _).mp h n
  rw [h1, coeff_addOp, h2, add_zero]

/-- Action of a differential operator on an element of the differential
field: `(sum a_i D^i)(f) = sum a_i der^i(f)`. -/
def applyOp (der : F → F) : List F → F → F
  | [], _ => 0
  | a :: as, f => a * f + applyOp der as (der f)

theorem applyOp_zero_of_coeff_zero (der : F → F) :
    ∀ {P : List F}, (∀ n, coeff P n = 0) → ∀ f, applyOp der P f = 0 := by
  intro P
  induction P with
  | nil => intro _ f; rfl
  | cons a as ih =>
    intro h f
    have ha : a = 0 := h 0
    have has : ∀ m, coeff as m = 0 := fun m => h (m + 1)
    show a * f + applyOp der as (der f) = 0
    rw [ha, zero_mul, zero_add]
    exact ih has (der f)

theorem applyOp_congr (der : F → F) :
    ∀ {P P' : List F}, Eqv P P' → ∀ f, applyOp der P f = applyOp der P' f := by
  intro P
  induction P with
  | nil =>
    intro P' h f
    have h0 : ∀ m, coeff P' m = 0 := fun m => ((h m).symm.trans (coeff_nil m))
    rw [applyOp_zero_of_coeff_zero der h0 f]
    rfl
  | cons a as ih =>
    intro P' h f
    cases P' with
    | nil =>
      have h0 : ∀ m, coeff (a :: as) m = 0 := fun m => (h m).trans (coeff_nil m)
      rw [applyOp_zero_of_coeff_zero der h0 f]
      rfl
    | cons b bs =>
      have hab : a = b := h 0
      have htl : Eqv as bs := fun m => h (m + 1)
      show a * f + applyOp der as (der f) = b * f + applyOp der bs (der f)
      rw [hab, ih htl (der f)]

theorem applyOp_addOp (der : F → F) :
    ∀ (P Q : List F) (f : F),
      applyOp der (addOp P Q) f = applyOp der P f + applyOp der Q f := by
  intro P
  induction P with
  | nil =>
    intro Q f
    rw [addOp_nil_left]
    show applyOp der Q f = 0 + applyOp der Q f
    rw [zero_add]
  | cons p ps ih =>
    intro Q f
    cases Q with
    | nil =>
      rw [addOp_nil_right]
      show applyOp der (p :: ps) f = applyOp der (p :: ps) f + 0
      rw [add_zero]
    | cons q qs =>
      show (p + q) * f + applyOp der (addOp ps qs) (der f)
        = (p * f + applyOp der ps (der f)) + (q * f + applyOp der qs (der f))
      rw [ih qs (der f)]
      ring

theorem applyOp_cmul (der : F → F) :
    ∀ (P : List F) (c f : F), applyOp der (cmul c P) f = c * applyOp der P f := by
  intro P
  induction P with
  | nil => intro c f; show (0 : F) = c * 0; ring
  | cons a as ih =>
    intro c f
    show c * a * f + applyOp der (cmul c as) (der f)
      = c * (a * f + applyOp der as (der f))
    rw [ih c (der f)]
    ring

theorem der_applyOp {der : F → F}
    (hadd : ∀ a b, der (a + b) = der a + der b)
    (hmul : ∀ a b, der (a * b) = der a * b + a * der b) :
    ∀ (Q : List F) (f : F),
      der (applyOp der Q f)
        = applyOp der (Q.map der) f + applyOp der Q (der f) := by
  intro Q
  induction Q with
  | nil => intro f; show der 0 = 0 + 0; rw [der_zero hadd]; ring
  | cons q qs ih =>
    intro f
    show der (q * f + applyOp der qs (der f)) = _
    rw [hadd, hmul, ih (der f)]
    show _ = (der q * f + applyOp der (qs.map der) (der f))
      + (q * der f + applyOp der qs (der (der f)))
    ring

theorem applyOp_dmul {der : F → F}
    (hadd : ∀ a b, der (a + b) = der a + der b)
    (hmul : ∀ a b, der (a * b) = der a * b + a * der b)
    (Q : List F) (f : F) :
    applyOp der (dmul der Q) f = der (applyOp der Q f) := by
  rw [dmul, applyOp_addOp, der_applyOp hadd hmul]
  show applyOp der (Q.map der) f + (0 * f + applyOp der Q (der f)) = _
  ring

theorem applyOp_mulOp {der : F → F}
    (hadd : ∀ a b, der (a + b) = der a + der b)
    (hmul : ∀ a b, der (a * b) = der a * b + a * der b) :
    ∀ (P Q : List F) (f : F),
      applyOp der (mulOp der P Q) f = applyOp der P (applyOp der Q f) := by
  intro P
  induction P with
  | nil => intro Q f; rfl
  | cons a as ih =>
    intro Q f
    show applyOp der (addOp (cmul a Q) (mulOp der as (dmul der Q))) f = _
    rw [applyOp_addOp, applyOp_cmul, ih (dmul der Q) f,
      applyOp_dmul hadd hmul]
    rfl

/-- Decomposition `D * (q :: qs) ~ (der q) :: (q + D * qs)` used in several
inductions. -/
theorem dmul_cons_eqv {der : F → F} (hd0 : der 0 = 0) (q : F) (qs : List F) :
    Eqv (dmul der (q :: qs)) ((der q) :: addOp (constOp q) (dmul der qs)) := by
  intro m
  rw [coeff_dmul der hd0]
  cases m with
  | zero => simp [coeff_cons_zero, coeff_cons_succ]
  | succ k =>
    rw [coeff_cons_succ, coeff_cons_succ, coeff_cons_succ, coeff_addOp,
      coeff_dmul der hd0]
    cases k with
    | zero =>
      rw [coeff_constOp_zero, coeff_cons_zero, coeff_cons_zero]
      ring
    | succ j =>
      rw [coeff_constOp_succ, coeff_cons_succ, coeff_cons_succ]
      ring

theorem adjointAux_zero_of {der : F → F} (hd0 : der 0 = 0) :
    ∀ {P : List F}, (∀ n, coeff P n = 0) →
      ∀ (i : ℕ) (m : ℕ), coeff (adjointAux der i P) m = 0 := by
  intro P
  induction P with
  | nil => intro _ i m; rfl
  | cons a as ih =>
    intro h i m
    have ha : a = 0 := h 0
    have has : ∀ k, coeff as k = 0 := fun k => h (k + 1)
    show coeff (addOp (mulOp der (negDpow der i) (constOp a))
      (adjointAux der (i + 1) as)) m = 0
    rw [coeff_addOp, ih has (i + 1) m, add_zero]
    have hc : ∀ n, coeff (constOp a) n = 0 := by
      intro n
      cases n with
      | zero => rw [coeff_constOp_zero, ha]
      | succ k => rw [coeff_constOp_succ]
    exact mulOp_coeff_zero_right hd0 (negDpow der i) hc m

theorem adjoint_congr {der : F → F} (hd0 : der 0 = 0) :
    ∀ {P P' : List F}, Eqv P P' →
      Eqv (myadjoint der P) (myadjoint der P') := by
  suffices h : ∀ (P P' : List F), Eqv P P' → ∀ i,
      Eqv (adjointAux der i P) (adjointAux der i P') by
    intro P P' hPP
    exact h P P' hPP 0
  intro P
  induction P with
  | nil =>
    intro P' h i n
    have h0 : ∀ m, coeff P' m = 0 := fun m => ((h m).symm.trans (coeff_nil m))
    rw [adjointAux_zero_of hd0 h0 i n]
    rfl
  | cons a as ih =>
    intro P' h i
    cases P' with
    | nil =>
      intro n
      have h0 : ∀ m, coeff (a :: as) m = 0 := fun m => (h m).trans (coeff_nil m)
      rw [adjointAux_zero_of hd0 h0 i n]
      rfl
    | cons b bs =>
      intro n
      have hab : a = b := h 0
      have htl : Eqv as bs := fun m => h (m + 1)
      show coeff (addOp (mulOp der (negDpow der i) (constOp a))
          (adjointAux der (i + 1) as)) n
        = coeff (addOp (mulOp der (negDpow der i) (constOp b))
          (adjointAux der (i + 1) bs)) n
      rw [coeff_addOp, coeff_addOp, hab, ih bs htl (i + 1) n]

theorem adjointAux_succ {der : F → F}
    (hadd : ∀ a b, der (a + b) = der a + der b)
    (hmul : ∀ a b, der (a * b) = der a * b + a * der b) :
    ∀ (ps : List F) (i : ℕ),
      Eqv (adjointAux der (i + 1) ps)
          (mulOp der negD (adjointAux der i ps)) := by
  have hd0 := der_zero hadd
  intro ps
  induction ps with
  | nil =>
    intro i n
    show coeff ([] : List F) n = coeff (mulOp der negD ([] : List F)) n
    rw [mulOp_coeff_zero_right hd0 negD (fun m => coeff_nil m) n, coeff_nil]
  | cons p ps ih =>
    intro i n
    show coeff (addOp (mulOp der (negDpow der (i + 1)) (constOp p))
      (adjointAux der (i + 2) ps)) n = _
    rw [coeff_addOp, ih (i + 1) n]
    have h1 : Eqv (mulOp der (negDpow der (i + 1)) (constOp p))
        (mulOp der negD (mulOp der (negDpow der i) (constOp p))) := by
      show Eqv (mulOp der (mulOp der negD (negDpow der i)) (constOp p)) _
      exact mulOp_assoc hadd hmul negD (negDpow der i) (constOp p)
    rw [h1 n]
    have h2 := mulOp_addOp_right hadd negD
      (mulOp der (negDpow der i) (constOp p)) (adjointAux der (i + 1) ps) n
    rw [← coeff_addOp, ← h2]
    rfl

theorem adjoint_cons {der : F → F}
    (hadd : ∀ a b, der (a + b) = der a + der b)
    (hmul : ∀ a b, der (a * b) = der a * b + a * der b) (a : F) (as : List F) :
    Eqv (myadjoint der (a :: as))
        (addOp (constOp a) (mulOp der negD (myadjoint der as))) := by
  intro n
  show coeff (addOp (mulOp der oneOp (constOp a))
      (adjointAux der (0 + 1) as)) n
    = coeff (addOp (constOp a) (mulOp der negD (adjointAux der 0 as))) n
  rw [coeff_addOp, coeff_addOp, adjointAux_succ hadd hmul as 0 n,
    oneOp_mulOp der (constOp a) n]

theorem adjoint_addOp {der : F → F}
    (hadd : ∀ a b, der (a + b) = der a + der b)
    (hmul : ∀ a b, der (a * b) = der a * b + a * der b) :
    ∀ (P Q : List F),
      Eqv (myadjoint der (addOp P Q))
          (addOp (myadjoint der P) (myadjoint der Q)) := by
  have hd0 := der_zero hadd
  suffices h : ∀ (P Q : List F) (i : ℕ),
      Eqv (adjointAux der i (addOp P Q))
          (addOp (adjointAux der i P) (adjointAux der i Q)) by
    intro P Q
    exact h P Q 0
  intro P
  induction P with
  | nil =>
    intro Q i n
    rw [addOp_nil_left]
    show coeff (adjointAux der i Q) n
      = coeff (addOp ([] : List F) (adjointAux der i Q)) n
    rw [addOp_nil_left]
  | cons p ps ih =>
    intro Q i
    cases Q with
    | nil =>
      intro n
      rw [addOp_nil_right]
      show coeff (adjointAux der i (p :: ps)) n
        = coeff (addOp (adjointAux der i (p :: ps)) ([] : List F)) n
      rw [addOp_nil_right]
    | cons q qs =>
      intro n
      show coeff (addOp (mulOp der (negDpow der i) (constOp (p + q)))
          (adjointAux der (i + 1) (addOp ps qs))) n
        = coeff (addOp
            (addOp (mulOp der (negDpow der i) (constOp p))
              (adjointAux der (i + 1) ps))
            (addOp (mulOp der (negDpow der i) (constOp q))
              (adjointAux der (i + 1) qs))) n
      have hsplit : (constOp (p + q) : List F) = addOp (constOp p) (constOp q) := rfl
      rw [coeff_addOp, hsplit,
        mulOp_addOp_right hadd (negDpow der i) (constOp p) (constOp q) n,
        ih qs (i + 1) n]
      simp only [coeff_addOp]
      ring

theorem adjoint_constOp {der : F → F}
    (hadd : ∀ a b, der (a + b) = der a + der b) (c : F) :
    Eqv (myadjoint der (constOp c)) (constOp c) := by
  intro n
  show coeff (addOp (mulOp der oneOp (constOp c)) ([] : List F)) n
    = coeff (constOp c) n
  rw [addOp_nil_right, oneOp_mulOp der (constOp c) n]

theorem adjoint_cmul {der : F → F}
    (hadd : ∀ a b, der (a + b) = der a + der b)
    (hmul : ∀ a b, der (a * b) = der a * b + a * der b) :
    ∀ (Q : List F) (c : F),
      Eqv (myadjoint der (cmul c Q))
          (mulOp der (myadjoint der Q) (constOp c)) := by
  have hd0 := der_zero hadd
  intro Q
  induction Q with
  | nil => intro c n; rfl
  | cons q qs ih =>
    intro c n
    show coeff (myadjoint der ((c * q) :: cmul c qs)) n = _
    rw [adjoint_cons hadd hmul (c * q) (cmul c qs) n, coeff_addOp,
      mulOp_congr_right hd0 negD (ih c) n,
      (Eqv.symm (mulOp_assoc hadd hmul negD (myadjoint der qs) (constOp c))) n]
    have hr : Eqv (mulOp der (myadjoint der (q :: qs)) (constOp c))
        (mulOp der (addOp (constOp q) (mulOp der negD (myadjoint der qs)))
          (constOp c)) :=
      mulOp_congr_left der (adjoint_cons hadd hmul q qs) (constOp c)
    rw [hr n, mulOp_addOp_left der (constOp q) (mulOp der negD (myadjoint der qs))
      (constOp c) n, coeff_addOp]
    have h1 : Eqv (mulOp der (constOp q) (constOp c)) (constOp (c * q)) := by
      intro m
      rw [mulOp_constOp der q (constOp c) m, coeff_cmul]
      cases m with
      | zero => rw [coeff_constOp_zero, coeff_constOp_zero]; ring
      | succ j => rw [coeff_constOp_succ, coeff_constOp_succ]; ring
    rw [h1 n]

/-- The Ore commutation `q * (-D) = (-D) * q + der q` at the level of
order-0 operators. -/
theorem mulOp_constOp_negD {der : F → F}
    (hadd : ∀ a b, der (a + b) = der a + der b)
    (hmul : ∀ a b, der (a * b) = der a * b + a * der b) (q : F) :
    Eqv (mulOp der (constOp q) negD)
        (addOp (mulOp der negD (constOp q)) (constOp (der q))) := by
  have hd0 := der_zero hadd
  intro n
  rw [mulOp_constOp der q negD n, coeff_cmul, coeff_addOp]
  show q * coeff negD n
    = coeff (mulOp der ((0 : F) :: [(-1 : F)]) (constOp q)) n
      + coeff (constOp (der q)) n
  rw [coeff_mulOp_cons, coeff_mulOp_cons, zero_mul, zero_add]
  have hnil : coeff (mulOp der ([] : List F)
      (dmul der (dmul der (constOp q)))) n = 0 := by
    simp [mulOp, coeff_nil]
  rw [hnil, add_zero, coeff_dmul der hd0]
  rcases n with _ | _ | j
  · show q * (0 : F) = (-1) * (der (coeff (constOp q) 0)
      + coeff ((0 : F) :: constOp q) 0) + coeff (constOp (der q)) 0
    rw [coeff_constOp_zero, coeff_cons_zero, coeff_constOp_zero]
    ring
  · show q * (-1 : F) = (-1) * (der (coeff (constOp q) 1)
      + coeff ((0 : F) :: constOp q) 1) + coeff (constOp (der q)) 1
    rw [coeff_constOp_succ, hd0, coeff_cons_succ, coeff_constOp_zero,
      coeff_constOp_succ]
    ring
  · show q * coeff ([] : List F) j = (-1) * (der (coeff (constOp q) (j + 2))
      + coeff ((0 : F) :: constOp q) (j + 2)) + coeff (constOp (der q)) (j + 2)
    rw [coeff_nil, coeff_constOp_succ, hd0, coeff_cons_succ,
      coeff_constOp_succ, coeff_constOp_succ]
    ring

theorem adjoint_dmul {der : F → F}
    (hadd : ∀ a b, der (a + b) = der a + der b)
    (hmul : ∀ a b, der (a * b) = der a * b + a * der b) :
    ∀ Q : List F,
      Eqv (myadjoint der (dmul der Q)) (mulOp der (myadjoint der Q) negD) := by
  have hd0 := der_zero hadd
  intro Q
  induction Q with
  | nil =>
    intro n
    have h1 : ∀ m, coeff (dmul der ([] : List F)) m = 0 :=
      coeff_zero_dmul hd0 (fun k => coeff_nil k)
    rw [adjoint_congr hd0 (eqv_nil_of_coeff_zero h1) n]
    rfl
  | cons q qs ih =>
    intro n
    rw [adjoint_congr hd0 (dmul_cons_eqv hd0 q qs) n,
      adjoint_cons hadd hmul (der q) (addOp (constOp q) (dmul der qs)) n,
      coeff_addOp,
      mulOp_congr_right hd0 negD
        (adjoint_addOp hadd hmul (constOp q) (dmul der qs)) n,
      mulOp_congr_right hd0 negD
        (eqv_addOp_congr (adjoint_constOp hadd q) ih) n,
      mulOp_addOp_right hadd negD (constOp q)
        (mulOp der (myadjoint der qs) negD) n,
      coeff_addOp,
      mulOp_congr_left der (adjoint_cons hadd hmul q qs) negD n,
      mulOp_addOp_left der (constOp q) (mulOp der negD (myadjoint der qs))
        negD n,
      coeff_addOp,
      mulOp_constOp_negD hadd hmul q n,
      coeff_addOp,
      mulOp_assoc hadd hmul negD (myadjoint der qs) negD n]
    ring

theorem adjoint_antihom {der : F → F}
    (hadd : ∀ a b, der (a + b) = der a + der b)
    (hmul : ∀ a b, der (a * b) = der a * b + a * der b) :
    ∀ P Q : List F,
      Eqv (myadjoint der (mulOp der P Q))
          (mulOp der (myadjoint der Q) (myadjoint der P)) := by
  have hd0 := der_zero hadd
  intro P
  induction P with
  | nil =>
    intro Q n
    show coeff ([] : List F) n
      = coeff (mulOp der (myadjoint der Q) ([] : List F)) n
    rw [mulOp_coeff_zero_right hd0 (myadjoint der Q) (fun m => coeff_nil m) n,
      coeff_nil]
  | cons a as ih =>
    intro Q n
    show coeff (myadjoint der
      (addOp (cmul a Q) (mulOp der as (dmul der Q)))) n = _
    rw [adjoint_addOp hadd hmul (cmul a Q) (mulOp der as (dmul der Q)) n,
      coeff_addOp,
      adjoint_cmul hadd hmul Q a n,
      ih (dmul der Q) n,
      mulOp_congr_left der (adjoint_dmul hadd hmul Q) (myadjoint der as) n,
      mulOp_assoc hadd hmul (myadjoint der Q) negD (myadjoint der as) n,
      mulOp_congr_right hd0 (myadjoint der Q) (adjoint_cons hadd hmul a as) n,
      mulOp_addOp_right hadd (myadjoint der Q) (constOp a)
        (mulOp der negD (myadjoint der as)) n,
      coeff_addOp]

theorem adjoint_negD {der : F → F}
    (hadd : ∀ a b, der (a + b) = der a + der b)
    (hmul : ∀ a b, der (a * b) = der a * b + a * der b) :
    Eqv (myadjoint der negD) (dpowOp 1) := by
  have hd0 := der_zero hadd
  have hneg := der_neg_one hadd hmul
  intro n
  show coeff (myadjoint der ((0 : F) :: [(-1 : F)])) n = coeff (dpowOp 1) n
  have had : Eqv (myadjoint der [(-1 : F)]) ([(-1 : F)]) :=
    adjoint_constOp hadd (-1)
  rw [adjoint_cons hadd hmul 0 [(-1 : F)] n, coeff_addOp,
    mulOp_congr_right hd0 negD had n]
  have h2 : ∀ m, coeff (mulOp der negD [(-1 : F)]) m
      = (-1) * coeff (dmul der [(-1 : F)]) m := by
    intro m
    show coeff (mulOp der ((0 : F) :: [(-1 : F)]) [(-1 : F)]) m = _
    rw [coeff_mulOp_cons, coeff_mulOp_cons, zero_mul, zero_add]
    have hz : coeff (mulOp der ([] : List F)
        (dmul der (dmul der [(-1 : F)]))) m = 0 := by
      simp [mulOp, coeff_nil]
    rw [hz, add_zero]
  rw [h2 n]
  have hdm : dmul der [(-1 : F)] = [der (-1) + 0, (-1 : F)] := rfl
  rw [hdm, hneg, coeff_dpowOp]
  cases n with
  | zero =>
    rw [coeff_constOp_zero, coeff_cons_zero]
    simp
  | succ m =>
    cases m with
    | zero =>
      rw [coeff_constOp_succ, coeff_cons_succ, coeff_cons_zero]
      simp
    | succ j =>
      rw [coeff_constOp_succ, coeff_cons_succ, coeff_cons_succ, coeff_nil]
      simp

/-- The formal adjoint is an involution on differential operators. -/
theorem myadjoint_involutive {der : F → F}
    (hadd : ∀ a b, der (a + b) = der a + der b)
    (hmul : ∀ a b, der (a * b) = der a * b + a * der b) :
    ∀ L : List F, Eqv (myadjoint der (myadjoint der L)) L := by
  have hd0 := der_zero hadd
  intro L
  induction L with
  | nil => intro n; rfl
  | cons a as ih =>
    intro n
    rw [adjoint_congr hd0 (adjoint_cons hadd hmul a as) n,
      adjoint_addOp hadd hmul (constOp a) (mulOp der negD (myadjoint der as)) n,
      coeff_addOp,
      adjoint_constOp hadd a n,
      adjoint_antihom hadd hmul negD (myadjoint der as) n,
      mulOp_congr_left der ih (myadjoint der negD) n,
      mulOp_congr_right hd0 as (adjoint_negD hadd hmul) n,
      mulOp_dpow_right hadd hmul as 1 n,
      coeff_replicate_append]
    cases n with
    | zero => simp [coeff_constOp_zero, coeff_cons_zero]
    | succ m => simp [coeff_constOp_succ, coeff_cons_succ]

theorem ordOp_pos_nonzero {P : List F} (h : 0 < ordOp P) : isZeroOp P = false := by
  cases hz : isZeroOp P
  · rfl
  · exfalso
    have h1 : trimOp P = [] := by simpa [isZeroOp] using hz
    have h2 : ordOp P = 0 := by simp [ordOp, h1]
    omega

theorem isZeroOp_of_eqv {P Q : List F} (h : Eqv P Q) :
    isZeroOp P = isZeroOp Q := by
  cases hq : isZeroOp Q with
  | true =>
    have h1 : ∀ n, coeff P n = 0 := fun n =>
      (h n).trans ((isZeroOp_iff Q).mp hq n)
    rw [(isZeroOp_iff P).mpr h1]
  | false =>
    cases hp : isZeroOp P with
    | false => rfl
    | true =>
      have h1 : ∀ n, coeff Q n = 0 := fun n =>
        ((h n).symm.trans ((isZeroOp_iff P).mp hp n))
      rw [(isZeroOp_iff Q).mpr h1] at hq
      simp at hq

/-- General top-coefficient and vanishing bound for an Ore product. -/
theorem mulOp_coeff_bound {der : F → F} (hd0 : der 0 = 0) :
    ∀ (P : List F) (p : ℕ) {Q : List F} (q : ℕ),
      (∀ m, m > p → coeff P m = 0) → (∀ m, m > q → coeff Q m = 0) →
      (∀ n, n > p + q → coeff (mulOp der P Q) n = 0) ∧
        coeff (mulOp der P Q) (p + q) = coeff P p * coeff Q q := by
  intro P
  induction P with
  | nil =>
    intro p Q q hP hQ
    constructor
    · intro n _; simp [mulOp, coeff_nil]
    · simp [mulOp, coeff_nil]
  | cons a as ih =>
    intro p Q q hP hQ
    cases p with
    | zero =>
      have has : ∀ m, coeff as m = 0 := fun m => hP (m + 1) (by omega)
      constructor
      · intro n hn
        rw [coeff_mulOp_cons, mulOp_coeff_zero_left der has (dmul der Q) n,
          hQ n (by omega), mul_zero, add_zero]
      · rw [coeff_mulOp_cons, mulOp_coeff_zero_left der has (dmul der Q) _,
          add_zero, coeff_cons_zero, Nat.zero_add]
    | succ p1 =>
      have has : ∀ m, m > p1 → coeff as m = 0 := by
        intro m hm
        have := hP (m + 1) (by omega)
        rwa [coeff_cons_succ] at this
      have hdQ : ∀ m, m > q + 1 → coeff (dmul der Q) m = 0 := by
        intro m hm
        rw [coeff_dmul der hd0, hQ m (by omega)]
        cases m with
        | zero => omega
        | succ i => simp [hd0, coeff_cons_succ, hQ i (by omega)]
      have htop : coeff (dmul der Q) (q + 1) = coeff Q q := by
        rw [coeff_dmul der hd0, hQ (q + 1) (by omega), hd0, coeff_cons_succ]
        ring
      obtain ⟨hz, ht⟩ := ih p1 (q + 1) has hdQ
      constructor
      · intro n hn
        rw [coeff_mulOp_cons, hQ n (by omega), mul_zero, zero_add]
        exact hz n (by omega)
      · have harith : p1 + 1 + q = p1 + (q + 1) := by omega
        rw [harith, coeff_mulOp_cons, hQ (p1 + (q + 1)) (by omega), mul_zero,
          zero_add, ht, htop, coeff_cons_succ]

/-- If `dop` is a left multiple of a nonzero `R`, the Euclidean remainder
test `dop % R == 0` succeeds (uniqueness of right division). -/
theorem remZeroB_of_left_multiple {der : F → F}
    (hadd : ∀ a b, der (a + b) = der a + der b)
    (hmul : ∀ a b, der (a * b) = der a * b + a * der b)
    {dop R W : List F} (hR : isZeroOp R = false)
    (h : Eqv dop (mulOp der W R)) : remZeroB der dop R = true := by
  have hd0 := der_zero hadd
  -- rem ~ (W - rquo) * R
  set V : List F := addOp W (cmul (-1) (rquo der dop R)) with hV
  have hrem : Eqv (rrem der dop R) (mulOp der V R) := by
    intro n
    have h1 := rquo_rrem_spec der dop R n
    rw [coeff_addOp] at h1
    have h4 := h n
    rw [hV, mulOp_addOp_left der W (cmul (-1) (rquo der dop R)) R n,
      coeff_addOp, mulOp_cmul_left der (rquo der dop R) (-1) R n, coeff_cmul]
    linear_combination h4 - h1
  cases hVz : isZeroOp V with
  | true =>
    have hV0 : ∀ n, coeff V n = 0 := (isZeroOp_iff V).mp hVz
    have hrem0 : ∀ n, coeff (rrem der dop R) n = 0 := by
      intro n
      rw [hrem n, mulOp_coeff_zero_left der hV0 R n]
    exact (isZeroOp_iff _).mpr hrem0
  | false =>
    exfalso
    have hbV : ∀ m, m > ordOp V → coeff V m = 0 := coeff_zero_of_gt_ordOp V
    have hbR : ∀ m, m > ordOp R → coeff R m = 0 := coeff_zero_of_gt_ordOp R
    obtain ⟨_, htop⟩ := mulOp_coeff_bound hd0 V (ordOp V) (ordOp R) hbV hbR
    have hlc : coeff (rrem der dop R) (ordOp V + ordOp R) ≠ 0 := by
      rw [hrem _, htop]
      exact mul_ne_zero (lcOp_ne_zero hVz) (lcOp_ne_zero hR)
    rcases rrem_small hd0 dop hR with hz | hlt
    · exact hlc ((isZeroOp_iff _).mp hz _)
    · exact hlc (coeff_zero_of_gt_ordOp _ _ (by omega))

/-- A nonzero operator has a nonzero adjoint. -/
theorem adjoint_nonzero {der : F → F}
    (hadd : ∀ a b, der (a + b) = der a + der b)
    (hmul : ∀ a b, der (a * b) = der a * b + a * der b)
    {L : List F} (h : isZeroOp L = false) :
    isZeroOp (myadjoint der L) = false := by
  have hd0 := der_zero hadd
  cases hz : isZeroOp (myadjoint der L)
  · rfl
  · exfalso
    have h1 : ∀ n, coeff (myadjoint der L) n = 0 := (isZeroOp_iff _).mp hz
    have h2 : ∀ n, coeff L n = 0 := by
      intro n
      rw [← myadjoint_involutive hadd hmul L n,
        adjoint_congr hd0 (eqv_nil_of_coeff_zero h1) n]
      rfl
    rw [(isZeroOp_iff L).mpr h2] at h
    simp at h

/-!
## Embedding of the numeric layer

The external Sage/ore_algebra layers (complex balls, `nearby_rational`,
`algdep`, number-field embeddings, `customized_accuracy`) are modelled as
oracle data carried by each ball entry; the control flow of
`_guess_symbolic_coefficients` itself is translated from the source.
-/

/-- Oracle data for one complex-ball entry of a candidate vector, recording
the answers of the external ball-arithmetic layer to the queries made by
`_guess_symbolic_coefficients`.  `α` is the type in which recognized
algebraic values live. -/
structure BallEntry (α : Type) where
  imagContainsZero : Bool
  nearby1 : ℚ
  nearby2 : ℚ
  algdepPoly : ℕ → ℕ → ℕ
  closestRoot : ℕ → α
  rootInBall : ℕ → Bool

/-- Result of `_guess_symbolic_coefficients`: either nothing, or a rational
vector (field `QQ`), or an algebraic vector together with the flag telling
whether the constructed number field is `QQ`. -/
inductive GuessSymbOut (α : Type) where
  | nothingFound
  | ratFound (vals : List ℚ)
  | algFound (vals : List α) (fieldIsQQ : Bool)

/-- Stability of the `algdep` guesses at degree `d` between the two
known-bits levels `p - 10` and `p - 20`.  Mirrors `v1 == v2` in the source. -/
def algdepStable {α : Type} (vec : List (BallEntry α)) (p d : ℕ) : Bool :=
  vec.all (fun x => decide (x.algdepPoly d (p - 10) = x.algdepPoly d (p - 20)))

/-- First degree `d` in `range(2, alg_degree + 1)` at which the `algdep`
guesses are stable. -/
def firstStableDegree {α : Type} (vec : List (BallEntry α)) (p alg_degree : ℕ) :
    Option ℕ :=
  (List.range' 2 (alg_degree - 1)).find? (fun d => algdepStable vec p d)

/-- Translation of `_guess_symbolic_coefficients(vec, alg_degree)`.
`p` is the value of `customized_accuracy(vec)` (external) and
`fieldIsQQ` the answer of `as_embedded_number_field_elements` on whether
the common field is `QQ`. -/
def _guess_symbolic_coefficients {α : Type} (vec : List (BallEntry α))
    (p : ℕ) (fieldIsQQ : Bool) (alg_degree : ℕ) : GuessSymbOut α :=
  let ratPrefix := vec.takeWhile (fun x => x.imagContainsZero)
  let v1 := ratPrefix.map (fun x => x.nearby1)
  let v2 := ratPrefix.map (fun x => x.nearby2)
  if ratPrefix.length = vec.length ∧ v1 = v2 then .ratFound v1
  else if p < 30 then .nothingFound
  else
    match firstStableDegree vec p alg_degree with
    | none => .nothingFound
    | some d =>
      if vec.all (fun x => x.rootInBall d) then
        .algFound (vec.map (fun x => x.closestRoot d)) fieldIsQQ
      else .nothingFound

/-!
## Embedding of `annihilator` and the eigenspace strategies
-/

/-- Truncated power series over the coefficient field, as used for
`local_basis_expansions` output and the Hermite-Pade step. -/
def seriesDeriv (f : List F) : List F :=
  (List.range (f.length - 1)).map (fun n => ((n + 1 : ℕ) : F) * f.getD (n + 1) 0)

/-- `[g, g', ..., g^(k)]`, mirroring the derivative loop of the source. -/
def derListAux (g : List F) : ℕ → List (List F)
  | 0 => [g]
  | k + 1 => g :: derListAux (seriesDeriv g) k

/-- `vector(symb_ic) * vector(sol_basis)`. -/
def dotSeries (vals : List F) (sols : List (List F)) : List F :=
  (List.zipWith cmul vals sols).foldr addOp []

/-- Valuation of a truncated series (its length when it is zero, which in
the source raises on the subsequent list slicing). -/
def seriesVal (f : List F) : ℕ := f.findIdx (fun c => decide (c ≠ 0))

/-- Index of the first row of minimal row degree
(`min(range(len(rdeg)), key=...)`). -/
def argminIdx (l : List ℕ) : ℕ :=
  match l.min? with
  | none => 0
  | some m => l.findIdx (fun x => decide (x = m))

def listMaxD (l : List ℕ) : ℕ := l.max?.getD 0

def listMinD (l : List ℕ) : ℕ := l.min?.getD 0

/-- Oracle data consumed by one invocation of `annihilator`.

The fields replace the external layers called there:
`orbit`/`_reduced_row_echelon_form` (ball linear algebra from
`linear_algebra.py`, not part of the analyzed sources) by the resulting
dimension and reduced first row, `customized_accuracy` by `icAcc`,
`local_basis_expansions` by `solBasis`, `ore_algebra.guess` by `guessOp`
(`none` modelling the `ValueError` it may raise), `_substitution_map`
(which needs the generator `z` and the Euler representation of the
external operator algebra) by `substMap`, and Sage's
`minimal_approximant_basis` together with `row_degrees` by `minBasis`. -/
structure AnnEnv (F : Type) where
  orbitLen : ℕ
  orbitIc : List (BallEntry F)
  icAcc : ℕ
  algKisQQ : Bool
  baseIsQQ : Bool
  solBasis : ℕ → List (List F)
  guessOp : List F → ℕ → Option (List F)
  substMap : List F → ℤ → List F
  minBasis : List (List F) → ℕ → List (List F) × List ℕ

/-- Result of `annihilator`: the sentinel string `"Inconclusive"`, the
operator `dop` itself (full orbit), or a right factor that passed the
verification of its return path. -/
inductive AnnRes (F : Type) where
  | Inconclusive
  | selfOp
  | factor (R : List F)

/-- The part of `annihilator` following symbolic recognition: build the
series `f`, then either the rational guessing path (with its check
`0 < R.order() < r and dop % R == 0`) or the Hermite-Pade path (with its
check `dop % R == 0`). -/
def annihilatorRecognized (env : AnnEnv F) (der : F → F) (dop : List F)
    (order : ℤ) (r d : ℕ) (symb_ic : List F) (kIsQQ : Bool) : AnnRes F :=
  let sols := env.solBasis (order + d).toNat
  let f := dotSeries symb_ic sols
  if kIsQQ && env.baseIsQQ then
    let v := seriesVal f
    match env.guessOp (f.drop v) d with
    | none => .Inconclusive
    | some g =>
      let R := env.substMap g (-(v : ℤ))
      if 0 < ordOp R ∧ ordOp R < r ∧ remZeroB der dop R then .factor R
      else .Inconclusive
  else
    let ders := derListAux f d
    let mb := env.minBasis ders order.toNat
    if 1 + listMinD mb.2 < listMaxD mb.2 then
      let i0 := argminIdx mb.2
      let R := mb.1.getD i0 []
      if remZeroB der dop R then .factor R else .Inconclusive
    else .Inconclusive

/-- Translation of `annihilator(dop, ic, order, bound, alg_degree, mono)`
(the strategies always pass a list of monodromy matrices, so the orbit
branch is always taken). -/
def annihilator (env : AnnEnv F) (der : F → F) (dop : List F)
    (order : ℤ) (bound : ℤ) (alg_degree : ℕ) : AnnRes F :=
  let r := ordOp dop
  let d := env.orbitLen
  if d = r then .selfOp
  else
    match _guess_symbolic_coefficients env.orbitIc env.icAcc env.algKisQQ
        alg_degree with
    | .nothingFound => .Inconclusive
    | .ratFound qs =>
      annihilatorRecognized env der dop order r d
        (qs.map (fun q => (q : F))) true
    | .algFound vals kqq =>
      annihilatorRecognized env der dop order r d vals kqq

/-- Result of the three eigenspace strategies. -/
inductive StratRes (F : Type) where
  | NotGoodConditions
  | Inconclusive
  | NoneRes
  | factor (R : List F)
  | Raised

/-- Whether a result of `annihilator` compares equal to `dop` under the
operator equality `R != dop` of the source. -/
def annResIsDop (dop : List F) : AnnRes F → Bool
  | .selfOp => true
  | .factor R => opEqB R dop
  | .Inconclusive => false

/-- Oracle data for one generalized eigenspace inside
`one_dimensional_eigenspaces`: the dimension of `ker(mat - eigenvalue*id)`
and the oracle bundle of the `annihilator` call on its basis vector. -/
structure OneDimSpace (F : Type) where
  kerDim : ℕ
  annE : AnnEnv F

/-- Oracle data for an invocation of `one_dimensional_eigenspaces`:
`customized_accuracy(mono)` (used by `_random_combination`, which raises
a `PrecisionError` below 10 bits) and `gen_eigenspaces` output. -/
structure OneDimEnv (F : Type) where
  monoAcc : ℕ
  spaces : List (OneDimSpace F)

/-- The loop of `one_dimensional_eigenspaces`.  Faithful to the source:
when `annihilator` answers `"Inconclusive"`, the comparison `R != dop`
succeeds (a string is never equal to an operator) and the string is
returned immediately, so later eigenvectors are not examined. -/
def odLoop (der : F → F) (dop : List F) (order bound : ℤ) (alg_degree : ℕ) :
    List (OneDimSpace F) → StratRes F
  | [] => .NoneRes
  | sp :: rest =>
    if 1 < sp.kerDim then .NotGoodConditions
    else
      match annihilator sp.annE der dop order bound alg_degree with
      | .Inconclusive => .Inconclusive
      | .selfOp => odLoop der dop order bound alg_degree rest
      | .factor R =>
        if opEqB R dop then odLoop der dop order bound alg_degree rest
        else .factor R

/-- Translation of `one_dimensional_eigenspaces`. -/
def one_dimensional_eigenspaces (env : OneDimEnv F) (der : F → F)
    (dop : List F) (order bound : ℤ) (alg_degree : ℕ) : StratRes F :=
  if env.monoAcc < 10 then .Raised
  else odLoop der dop order bound alg_degree env.spaces

/-- Oracle data for one eigenspace inside `simple_eigenvalue`:
its algebraic multiplicity, the `annihilator` bundle for the direct
attempt, the dimension of the adjoint kernel
`ker(Q * mat^T * Q^(-1) - eigenvalue * id)` and the bundle of the
`annihilator` call on the adjoint side. -/
structure SimpleSpace (F : Type) where
  multiplicity : ℕ
  annE : AnnEnv F
  adjKerDim : ℕ
  adjAnnE : AnnEnv F

structure SimpleEnv (F : Type) where
  monoAcc : ℕ
  spaces : List (SimpleSpace F)

/-- The adjoint attempt inside `simple_eigenvalue`; `rIsDop` records
whether the direct attempt returned `dop` itself. -/
def seAdjoint (der : F → F) (dop : List F) (order bound : ℤ)
    (alg_degree : ℕ) (sp : SimpleSpace F) (rIsDop : Bool) : StratRes F :=
  let adj_dop := myadjoint der dop
  if sp.adjKerDim = 0 then .Inconclusive
  else if 1 < sp.adjKerDim then .Inconclusive
  else
    let adjQ := annihilator sp.adjAnnE der adj_dop order bound alg_degree
    match adjQ with
    | .factor Q =>
      if opEqB Q adj_dop then (if rIsDop then .NoneRes else .Inconclusive)
      else .factor (myadjoint der (rquo der adj_dop Q))
    | .selfOp => if rIsDop then .NoneRes else .Inconclusive
    | .Inconclusive => .Inconclusive

/-- The loop of `simple_eigenvalue`: the first eigenspace of multiplicity
one is examined and the loop always ends there (every branch of the source
returns or breaks). -/
def seLoop (der : F → F) (dop : List F) (order bound : ℤ) (alg_degree : ℕ) :
    List (SimpleSpace F) → StratRes F
  | [] => .NotGoodConditions
  | sp :: rest =>
    if sp.multiplicity = 1 then
      let R := annihilator sp.annE der dop order bound alg_degree
      match R with
      | .factor R0 =>
        if opEqB R0 dop then
          seAdjoint der dop order bound alg_degree sp true
        else .factor R0
      | .selfOp => seAdjoint der dop order bound alg_degree sp true
      | .Inconclusive => seAdjoint der dop order bound alg_degree sp false
    else seLoop der dop order bound alg_degree rest

/-- Translation of `simple_eigenvalue`. -/
def simple_eigenvalue (env : SimpleEnv F) (der : F → F) (dop : List F)
    (order bound : ℤ) (alg_degree : ℕ) : StratRes F :=
  if env.monoAcc < 10 then .Raised
  else seLoop der dop order bound alg_degree env.spaces

/-- Oracle data for `multiple_eigenvalue`: whether
`invariant_subspace(mono)` found a proper subspace, and the `annihilator`
bundle on its first basis vector. -/
structure MultEnv (F : Type) where
  hasInvSub : Bool
  annE : AnnEnv F

/-- Translation of `multiple_eigenvalue`. -/
def multiple_eigenvalue (env : MultEnv F) (der : F → F) (dop : List F)
    (order bound : ℤ) (alg_degree : ℕ) : StratRes F :=
  let r := ordOp dop
  if env.hasInvSub = false then .NoneRes
  else
    match annihilator env.annE der dop order bound alg_degree with
    | .factor R => if ordOp R < r then .factor R else .Inconclusive
    | .selfOp => .Inconclusive
    | .Inconclusive => .Inconclusive

/-!
## Degree bound (`_largest_modulus_of_exponents`,
`_degree_bound_for_right_factor`)
-/

/-- Oracle data extracted by the external algebra layer for the degree
bound: the number of roots of the leading coefficient in `QQbar`, and for
each irreducible factor of `lc // gcd(coefficients)` (plus the place at
infinity, kept separately) the moduli `|e|` of the roots of the indicial
polynomial there. -/
structure DegEnv where
  numSingularities : ℕ
  factorExps : List (List ℚ)
  infExps : List ℚ

/-- `max([x.abs().ceil() for x in local_exponents], default=0)`. -/
def placeLargestModulus (exps : List ℚ) : ℤ :=
  ((exps.map (fun x => ⌈x⌉)).max?).getD 0

/-- Translation of `_largest_modulus_of_exponents`: fold of the per-place
maxima over the factors of the reduced leading coefficient plus the place
at infinity, starting from `0`. -/
def _largest_modulus_of_exponents (env : DegEnv) : ℤ :=
  (env.factorExps ++ [env.infExps]).foldl
    (fun out exps => max (placeLargestModulus exps) out) 0

/-- Translation of `_degree_bound_for_right_factor`: the rational value
`r^2*(S+1)*E + r*S + r^2*(r-1)*(S-1)/2` with `r = order - 1`, converted by
`ZZ(bound)` (`none` models the failure of that conversion on a
non-integer). -/
def _degree_bound_for_right_factor (env : DegEnv) (dop : List F) : Option ℤ :=
  let r : ℤ := (ordOp dop : ℤ) - 1
  let S : ℤ := (env.numSingularities : ℤ)
  let E : ℤ := _largest_modulus_of_exponents env
  let bound : ℚ := ((r ^ 2 * (S + 1) * E + r * S : ℤ) : ℚ)
    + ((r ^ 2 * (r - 1) * (S - 1) : ℤ) : ℚ) / 2
  if bound.den = 1 then some bound.num else none

/-!
## Trivial-monodromy fallback (`rfactor_when_monodromy_is_trivial`)
-/

/-- Oracle data for the fallback: the first local solution as a truncated
power series at the requested precision, and the external
`minimal_approximant_basis` with its row degrees. -/
structure FallbackEnv (F : Type) where
  localBasisFirst : ℕ → List F
  minBasis : List (List F) → ℕ → List (List F) × List ℕ

/-- The approximant order used by the source:
`max(order // r, 1)` (floor division). -/
def rwmit_sigma (order : ℤ) (r : ℕ) : ℤ := max (Int.fdiv order (r : ℤ)) 1

/-- One candidate of the fallback: first local solution expanded to
`order + r` terms, the `r x 1` matrix of its successive derivatives, a
minimal approximant basis at `rwmit_sigma order r`, and the row of
minimal row degree. -/
def rwmit_candidate (env : FallbackEnv F) (dop : List F) (order : ℤ) :
    List F :=
  let r := ordOp dop
  let f := env.localBasisFirst (order + (r : ℤ)).toNat
  let ders := derListAux f (r - 1)
  let mb := env.minBasis ders (rwmit_sigma order r).toNat
  mb.1.getD (argminIdx mb.2) []

/-- Translation of `rfactor_when_monodromy_is_trivial`: return the
candidate if `dop % R == 0`, else double the truncation order and retry. -/
def rfactor_when_monodromy_is_trivial (env : FallbackEnv F) (der : F → F)
    (dop : List F) : ℤ → ℕ → Option (List F)
  | _, 0 => none
  | order, fuel + 1 =>
    let R := rwmit_candidate env dop order
    if remZeroB der dop R then some R
    else rfactor_when_monodromy_is_trivial env der dop (order * 2) fuel

/-- The truncation order that the specification prescribes for the
approximant basis of the fallback, written from the spec text
(`minimal approximant basis at ceil(order/r)`); a second definition kept
next to the source translation `rwmit_sigma` for comparison. -/
def rwmit_sigma_spec (order : ℤ) (r : ℕ) : ℤ :=
  Int.fdiv (order + (r : ℤ) - 1) (r : ℤ)

/-- The fallback candidate computed with the specification's truncation
order `ceil(order/r)` instead of the source's `max(order // r, 1)`. -/
def rwmit_candidate_spec (env : FallbackEnv F) (dop : List F) (order : ℤ) :
    List F :=
  let r := ordOp dop
  let f := env.localBasisFirst (order + (r : ℤ)).toNat
  let ders := derListAux f (r - 1)
  let mb := env.minBasis ders (rwmit_sigma_spec order r).toNat
  mb.1.getD (argminIdx mb.2) []

/-- The fallback as described by the specification (differing from the
source only in the approximant order). -/
def rwmit_specVersion (env : FallbackEnv F) (der : F → F)
    (dop : List F) : ℤ → ℕ → Option (List F)
  | _, 0 => none
  | order, fuel + 1 =>
    let R := rwmit_candidate_spec env dop order
    if remZeroB der dop R then some R
    else rwmit_specVersion env der dop (order * 2) fuel

/-!
## Monodromy driver (`rfactor_via_monodromy`)
-/

/-- The parameters threaded through the retries of the monodromy pipeline. -/
structure MonoParams where
  order : ℤ
  bound : ℤ
  algDegree : ℕ
  precision : ℕ
  loss : ℕ
deriving DecidableEq

/-- Oracle data for one non-scalar monodromy matrix delivered by the
external engine: its customized accuracy and the oracle bundles for the
three strategy invocations triggered by its arrival. -/
structure MatEvent (F : Type) where
  acc : ℕ
  odE : OneDimEnv F
  seE : SimpleEnv F
  meE : MultEnv F

/-- One event of the monodromy iterator: a non-scalar matrix, or a
`ZeroDivisionError` / `PrecisionError` raised during the computation. -/
inductive RunEvent (F : Type) where
  | mat (e : MatEvent F)
  | err

/-- Oracle data for `rfactor_via_monodromy` on a fixed operator: the event
stream of each retry (indexed by the retry count), the fallback oracles,
`PlainDifferentialOperator(dop).degree()`, the degree of the base number
field, and the data for the degree bound. -/
structure MonoEnv (F : Type) where
  calls : ℕ → List (RunEvent F)
  fallback : FallbackEnv F
  dopDegree : ℕ
  baseFieldDegree : ℕ
  degData : DegEnv

/-- Result of `rfactor` / `rfactor_via_monodromy`: a factor, `None`
(irreducible), or divergence (the unbounded retry recursion of the
source, truncated by fuel). -/
inductive RfRes (F : Type) where
  | factor (R : List F)
  | irreducible
  | diverged

/-- Outcome of one pass over the event stream. -/
inductive StepOut (F : Type) where
  | done (res : Option (List F))
  | fallbackCase
  | precErr (loss : ℕ)
  | exhaust (loss : ℕ)

/-- The strategy ladder tried on each new matrix: `one_dimensional`, then
`simple_eigenvalue` on `NotGoodConditions`, then `multiple_eigenvalue`. -/
def strategyCascade (ev : MatEvent F) (der : F → F) (dop : List F)
    (order bound : ℤ) (algDeg : ℕ) : StratRes F :=
  match one_dimensional_eigenspaces ev.odE der dop order bound algDeg with
  | .NotGoodConditions =>
    match simple_eigenvalue ev.seE der dop order bound algDeg with
    | .NotGoodConditions => multiple_eigenvalue ev.meE der dop order bound algDeg
    | r2 => r2
  | r1 => r1

/-- The `for pt, mat, scal in it` loop of `rfactor_via_monodromy`:
fold the precision loss, run the strategies on each new matrix, raise on
errors, and distinguish an empty matrix list (trivial monodromy) from an
exhausted iterator. -/
def processEvents (der : F → F) (dop : List F) (order bound : ℤ)
    (algDeg precision : ℕ) :
    List (RunEvent F) → ℕ → Bool → StepOut F
  | [], loss, anyMat => if anyMat then .exhaust loss else .fallbackCase
  | .err :: _, loss, _ => .precErr loss
  | .mat ev :: rest, loss, _ =>
    let loss2 := max loss (precision - ev.acc)
    match strategyCascade ev der dop order bound algDeg with
    | .Raised => .precErr loss2
    | .factor R => .done (some R)
    | .NoneRes => .done none
    | .NotGoodConditions => .done none
    | .Inconclusive =>
      processEvents der dop order bound algDeg precision rest loss2 true

/-- Parameter update after a caught `PrecisionError` or
`ZeroDivisionError`: `precision += max(150, precision - loss)`, order and
algebraic degree unchanged. -/
def paramsAfterError (p : MonoParams) (l : ℕ) : MonoParams :=
  ⟨p.order, p.bound, p.algDegree, p.precision + max 150 (p.precision - l), l⟩

/-- Parameter update after exhausting the matrices inconclusively:
same precision increase, `order = min(bound*(r+1)+1, order*2)`,
`alg_degree + 1`. -/
def paramsAfterExhaustion (r : ℕ) (p : MonoParams) (l : ℕ) : MonoParams :=
  ⟨min (p.bound * ((r : ℤ) + 1) + 1) (p.order * 2), p.bound, p.algDegree + 1,
    p.precision + max 150 (p.precision - l), l⟩

/-- The retry recursion of `rfactor_via_monodromy`, with the per-retry
parameters explicit (the Python optional arguments after the first call). -/
def rfactor_via_monodromy_aux (env : MonoEnv F) (der : F → F)
    (dop : List F) : MonoParams → ℕ → ℕ → RfRes F
  | _, _, 0 => .diverged
  | p, cidx, fuel + 1 =>
    match processEvents der dop p.order p.bound p.algDegree p.precision
        (env.calls cidx) p.loss false with
    | .done (some R) => .factor R
    | .done none => .irreducible
    | .fallbackCase =>
      match rfactor_when_monodromy_is_trivial env.fallback der dop p.order
          (fuel + 1) with
      | some R => .factor R
      | none => .diverged
    | .precErr l =>
      rfactor_via_monodromy_aux env der dop (paramsAfterError p l)
        (cidx + 1) fuel
    | .exhaust l =>
      rfactor_via_monodromy_aux env der dop
        (paramsAfterExhaustion (ordOp dop) p l) (cidx + 1) fuel

/-- The initial parameters chosen by `rfactor_via_monodromy` when all the
optional arguments are `None`. -/
def initMonoParams (env : MonoEnv F) (dop : List F) (bound : ℤ) :
    MonoParams :=
  let r := ordOp dop
  ⟨max (min (min ((r * env.dopDegree : ℕ) : ℤ) 100)
      (bound * ((r : ℤ) + 1) + 1)) 1,
    bound, env.baseFieldDegree, 50 * (r + 1), 0⟩

/-- Translation of `rfactor_via_monodromy(dop)` called with default
arguments. -/
def rfactor_via_monodromy (env : MonoEnv F) (der : F → F) (dop : List F)
    (fuel : ℕ) : RfRes F :=
  match _degree_bound_for_right_factor env.degData dop with
  | none => .diverged
  | some bound =>
    rfactor_via_monodromy_aux env der dop (initMonoParams env dop bound) 0 fuel

/-!
## `rfactor` and `factor`
-/

/-- Oracle data for `rfactor` and `factor`, per operator where relevant.

`ratSols` stands for `dop.rational_solutions()` (first components),
`gcdDeriv f` for `f.gcd(f.derivative())`, `sings` for the rational points
among `_singularities(QQbar)`, `shiftFwd dop s` for
`dop.annihilator_of_composition(z + s)`, `shiftBack R s` for
`R.annihilator_of_composition(z - s)`, and `monoEnv` for the oracle data
of the monodromy pipeline on the shifted monic operator.

`vanHoeij` — Modelled from the spec: the `try_van_hoeij` exponent search
of §4.3.2 of the specification, which is absent from the analyzed source
(`rfactor` there never calls any van Hoeij routine); it is carried as an
unused oracle only so that the behaviour the specification attributes to
`rfactor` can be stated and compared. -/
structure RfEnv (F : Type) where
  ratSols : List F → List F
  gcdDeriv : F → F
  sings : List F → List ℚ
  shiftFwd : List F → ℚ → List F
  shiftBack : List F → ℚ → List F
  vanHoeij : List F → Option (List F)
  monoEnv : List F → MonoEnv F

/-- The `while s0 in sings: s0 = s0 + 1` search for an ordinary rational
base point. -/
def findShiftAux (sings : List ℚ) : ℕ → ℚ → ℚ
  | 0, s => s
  | fuel + 1, s => if s ∈ sings then findShiftAux sings fuel (s + 1) else s

def findShift (sings : List ℚ) : ℚ := findShiftAux sings (sings.length + 1) 0

/-- `.monic()`: divide by the leading coefficient. -/
def monicOp (P : List F) : List F := cmul (lcOp P)⁻¹ P

/-- Translation of `_try_rational`: on the first rational solution `f`,
return `(1/d) * (f*Dz - f')` with `d = gcd(f, f')`.  No division test is
run on this path. -/
def _try_rational (env : RfEnv F) (der : F → F) (dop : List F) :
    Option (List F) :=
  match env.ratSols dop with
  | [] => none
  | f :: _ => some (cmul (env.gcdDeriv f)⁻¹ [-(der f), f])

/-- Translation of `rfactor`: order guard, rational probe, base-point
shift, monodromy pipeline, and shift back. -/
def rfactor (env : RfEnv F) (der : F → F) (dop : List F) (fuel : ℕ) :
    RfRes F :=
  if ordOp dop < 2 then .irreducible
  else
    match _try_rational env der dop with
    | some R => .factor R
    | none =>
      let s0 := findShift (env.sings dop)
      let dop2 := monicOp (env.shiftFwd dop s0)
      match rfactor_via_monodromy (env.monoEnv dop2) der dop2 fuel with
      | .factor R => .factor (env.shiftBack R s0)
      | .irreducible => .irreducible
      | .diverged => .diverged

/-- The recursion `_factor`: split off a right factor, divide, recurse on
quotient and factor.  `none` models non-termination (fuel exhaustion). -/
def factorAux (env : RfEnv F) (der : F → F) : ℕ → List F →
    Option (List (List F))
  | 0, _ => none
  | fuel + 1, dop =>
    match rfactor env der dop fuel with
    | .diverged => none
    | .irreducible => some [dop]
    | .factor R =>
      match factorAux env der fuel (rquo der dop R), factorAux env der fuel R with
      | some l1, some l2 => some (l1 ++ l2)
      | _, _ => none

/-- Translation of `factor` (the final unification of coefficient fields
is the identity in this single-field embedding). -/
def factor (env : RfEnv F) (der : F → F) (dop : List F) (fuel : ℕ) :
    Option (List (List F)) :=
  factorAux env der fuel dop

/-- Product of a list of operators, as `L1 * L2 * ... * Lk`. -/
def prodOps (der : F → F) : List (List F) → List F
  | [] => oneOp
  | x :: xs => mulOp der x (prodOps der xs)

/-!
## Verification lemmas for the return paths
-/

theorem remZero_nonzero {der : F → F} (hd0 : der 0 = 0) {L R : List F}
    (hL : isZeroOp L = false) (h : remZeroB der L R = true) :
    isZeroOp R = false := by
  cases hRz : isZeroOp R with
  | false => rfl
  | true =>
    exfalso
    have hR0 : ∀ n, coeff R n = 0 := (isZeroOp_iff R).mp hRz
    have hL0 : ∀ n, coeff L n = 0 := by
      intro n
      have h1 := rquo_rrem_spec der L R n
      rw [coeff_addOp, mulOp_coeff_zero_right hd0 (rquo der L R) hR0 n,
        zero_add, (isZeroOp_iff _).mp h n] at h1
      exact h1
    rw [(isZeroOp_iff L).mpr hL0] at hL
    simp at hL

/-- `dop = (dop // R) * R` whenever the remainder test succeeds. -/
theorem remZero_eqv_mul {der : F → F} {L R : List F}
    (h : remZeroB der L R = true) :
    Eqv L (mulOp der (rquo der L R) R) := remZeroB_divides der h

theorem annihilatorRecognized_factor_remZero (env : AnnEnv F) (der : F → F)
    (dop : List F) (order : ℤ) (r d : ℕ) (ic : List F) (k : Bool)
    {R : List F}
    (h : annihilatorRecognized env der dop order r d ic k = .factor R) :
    remZeroB der dop R = true := by
  unfold annihilatorRecognized at h
  dsimp only at h
  split at h
  · split at h
    · exact absurd h (by simp)
    · split at h
      · rename_i hguard
        obtain ⟨h1, h2, h3⟩ := hguard
        cases h
        exact h3
      · exact absurd h (by simp)
  · split at h
    · split at h
      · rename_i hrem
        cases h
        exact hrem
      · exact absurd h (by simp)
    · exact absurd h (by simp)

theorem annihilator_factor_remZero (env : AnnEnv F) (der : F → F)
    (dop : List F) (order bound : ℤ) (alg_degree : ℕ) {R : List F}
    (h : annihilator env der dop order bound alg_degree = .factor R) :
    remZeroB der dop R = true := by
  unfold annihilator at h
  dsimp only at h
  by_cases hd : env.orbitLen = ordOp dop
  · rw [if_pos hd] at h
    exact absurd h (by simp)
  · rw [if_neg hd] at h
    cases hg : _guess_symbolic_coefficients env.orbitIc env.icAcc
        env.algKisQQ alg_degree with
    | nothingFound =>
      rw [hg] at h
      exact absurd h (by simp)
    | ratFound qs =>
      rw [hg] at h
      exact annihilatorRecognized_factor_remZero _ _ _ _ _ _ _ _ h
    | algFound vals kqq =>
      rw [hg] at h
      exact annihilatorRecognized_factor_remZero _ _ _ _ _ _ _ _ h

theorem applyOp_at_zero {der : F → F} (hd0 : der 0 = 0) :
    ∀ P : List F, applyOp der P 0 = 0 := by
  intro P
  induction P with
  | nil => rfl
  | cons a as ih =>
    show a * 0 + applyOp der as (der 0) = 0
    rw [hd0, ih, mul_zero, add_zero]

theorem trim_pair {a b : F} (hb : b ≠ 0) : trimOp [a, b] = [a, b] := by
  have h1 : trimOp [b] = [b] := by
    rw [trimOp_cons]
    simp [hb, trimOp]
  rw [trimOp_cons, h1]
  simp

theorem ordOp_pair {a b : F} (hb : b ≠ 0) : ordOp [a, b] = 1 := by
  simp [ordOp, trim_pair hb]

theorem isZeroOp_pair {a b : F} (hb : b ≠ 0) : isZeroOp [a, b] = false := by
  simp [isZeroOp, trim_pair hb]

theorem odLoop_factor_remZero (der : F → F) (dop : List F)
    (order bound : ℤ) (alg_degree : ℕ) {R : List F} :
    ∀ spaces : List (OneDimSpace F),
      odLoop der dop order bound alg_degree spaces = .factor R →
      remZeroB der dop R = true := by
  intro spaces
  induction spaces with
  | nil => intro h; exact absurd h (by simp [odLoop])
  | cons sp rest ih =>
    intro h
    unfold odLoop at h
    split at h
    · exact absurd h (by simp)
    · split at h
      · exact absurd h (by simp)
      · exact ih h
      · rename_i R0 heq
        split at h
        · exact ih h
        · cases h
          exact annihilator_factor_remZero _ _ _ _ _ _ heq

theorem one_dimensional_eigenspaces_factor_remZero (env : OneDimEnv F)
    (der : F → F) (dop : List F) (order bound : ℤ) (alg_degree : ℕ)
    {R : List F}
    (h : one_dimensional_eigenspaces env der dop order bound alg_degree
      = .factor R) :
    remZeroB der dop R = true := by
  unfold one_dimensional_eigenspaces at h
  split at h
  · exact absurd h (by simp)
  · exact odLoop_factor_remZero der dop order bound alg_degree env.spaces h

theorem seAdjoint_factor_remZero {der : F → F}
    (hadd : ∀ a b, der (a + b) = der a + der b)
    (hmul : ∀ a b, der (a * b) = der a * b + a * der b)
    {dop : List F} (hdnz : isZeroOp dop = false) (order bound : ℤ)
    (alg_degree : ℕ) (sp : SimpleSpace F) (rIsDop : Bool) {R : List F}
    (h : seAdjoint der dop order bound alg_degree sp rIsDop = .factor R) :
    remZeroB der dop R = true := by
  have hd0 := der_zero hadd
  unfold seAdjoint at h
  dsimp only at h
  split at h
  · exact absurd h (by simp)
  · split at h
    · exact absurd h (by simp)
    · split at h
      · rename_i Q heq
        split at h
        · revert h
          cases rIsDop <;> simp
        · cases h
          have hrz : remZeroB der (myadjoint der dop) Q = true :=
            annihilator_factor_remZero _ _ _ _ _ _ heq
          have hadjnz : isZeroOp (myadjoint der dop) = false :=
            adjoint_nonzero hadd hmul hdnz
          have hquo_nz : isZeroOp (rquo der (myadjoint der dop) Q) = false := by
            cases hz : isZeroOp (rquo der (myadjoint der dop) Q) with
            | false => rfl
            | true =>
              exfalso
              have hq0 : ∀ n, coeff (rquo der (myadjoint der dop) Q) n = 0 :=
                (isZeroOp_iff _).mp hz
              have hz2 : ∀ n, coeff (myadjoint der dop) n = 0 := by
                intro n
                rw [remZero_eqv_mul hrz n, mulOp_coeff_zero_left der hq0 Q n]
              rw [(isZeroOp_iff _).mpr hz2] at hadjnz
              simp at hadjnz
          have hW : Eqv dop (mulOp der (myadjoint der Q)
              (myadjoint der (rquo der (myadjoint der dop) Q))) := by
            intro n
            rw [← myadjoint_involutive hadd hmul dop n,
              adjoint_congr hd0 (remZero_eqv_mul hrz) n,
              adjoint_antihom hadd hmul (rquo der (myadjoint der dop) Q) Q n]
          have hRnz : isZeroOp (myadjoint der
              (rquo der (myadjoint der dop) Q)) = false :=
            adjoint_nonzero hadd hmul hquo_nz
          exact remZeroB_of_left_multiple hadd hmul hRnz hW
      · revert h
        cases rIsDop <;> simp
      · exact absurd h (by simp)

theorem seLoop_factor_remZero {der : F → F}
    (hadd : ∀ a b, der (a + b) = der a + der b)
    (hmul : ∀ a b, der (a * b) = der a * b + a * der b)
    {dop : List F} (hdnz : isZeroOp dop = false) (order bound : ℤ)
    (alg_degree : ℕ) {R : List F} :
    ∀ spaces : List (SimpleSpace F),
      seLoop der dop order bound alg_degree spaces = .factor R →
      remZeroB der dop R = true := by
  intro spaces
  induction spaces with
  | nil => intro h; exact absurd h (by simp [seLoop])
  | cons sp rest ih =>
    intro h
    unfold seLoop at h
    split at h
    · dsimp only at h
      split at h
      · rename_i R0 heq
        split at h
        · exact seAdjoint_factor_remZero hadd hmul hdnz order bound alg_degree
            sp true h
        · cases h
          exact annihilator_factor_remZero _ _ _ _ _ _ heq
      · exact seAdjoint_factor_remZero hadd hmul hdnz order bound alg_degree
          sp true h
      · exact seAdjoint_factor_remZero hadd hmul hdnz order bound alg_degree
          sp false h
    · exact ih h

theorem simple_eigenvalue_factor_remZero (env : SimpleEnv F) {der : F → F}
    (hadd : ∀ a b, der (a + b) = der a + der b)
    (hmul : ∀ a b, der (a * b) = der a * b + a * der b)
    {dop : List F} (hdnz : isZeroOp dop = false) (order bound : ℤ)
    (alg_degree : ℕ) {R : List F}
    (h : simple_eigenvalue env der dop order bound alg_degree = .factor R) :
    remZeroB der dop R = true := by
  unfold simple_eigenvalue at h
  split at h
  · exact absurd h (by simp)
  · exact seLoop_factor_remZero hadd hmul hdnz order bound alg_degree
      env.spaces h

theorem multiple_eigenvalue_factor_remZero (env : MultEnv F) (der : F → F)
    (dop : List F) (order bound : ℤ) (alg_degree : ℕ) {R : List F}
    (h : multiple_eigenvalue env der dop order bound alg_degree = .factor R) :
    remZeroB der dop R = true := by
  unfold multiple_eigenvalue at h
  dsimp only at h
  split at h
  · exact absurd h (by simp)
  · split at h
    · rename_i R0 heq
      split at h
      · cases h
        exact annihilator_factor_remZero _ _ _ _ _ _ heq
      · exact absurd h (by simp)
    · exact absurd h (by simp)
    · exact absurd h (by simp)

theorem strategyCascade_factor_remZero (ev : MatEvent F) {der : F → F}
    (hadd : ∀ a b, der (a + b) = der a + der b)
    (hmul : ∀ a b, der (a * b) = der a * b + a * der b)
    {dop : List F} (hdnz : isZeroOp dop = false) (order bound : ℤ)
    (algDeg : ℕ) {R : List F}
    (h : strategyCascade ev der dop order bound algDeg = .factor R) :
    remZeroB der dop R = true := by
  unfold strategyCascade at h
  cases h1 : one_dimensional_eigenspaces ev.odE der dop order bound algDeg with
  | NotGoodConditions =>
    rw [h1] at h
    cases h2 : simple_eigenvalue ev.seE der dop order bound algDeg with
    | NotGoodConditions =>
      rw [h2] at h
      exact multiple_eigenvalue_factor_remZero _ _ _ _ _ _ h
    | factor R2 =>
      rw [h2] at h
      cases h
      exact simple_eigenvalue_factor_remZero ev.seE hadd hmul hdnz _ _ _ h2
    | Inconclusive => rw [h2] at h; exact absurd h (by simp)
    | NoneRes => rw [h2] at h; exact absurd h (by simp)
    | Raised => rw [h2] at h; exact absurd h (by simp)
  | factor R1 =>
    rw [h1] at h
    cases h
    exact one_dimensional_eigenspaces_factor_remZero ev.odE der dop _ _ _ h1
  | Inconclusive => rw [h1] at h; exact absurd h (by simp)
  | NoneRes => rw [h1] at h; exact absurd h (by simp)
  | Raised => rw [h1] at h; exact absurd h (by simp)

theorem processEvents_factor_remZero {der : F → F}
    (hadd : ∀ a b, der (a + b) = der a + der b)
    (hmul : ∀ a b, der (a * b) = der a * b + a * der b)
    {dop : List F} (hdnz : isZeroOp dop = false) (order bound : ℤ)
    (algDeg precision : ℕ) {R : List F} :
    ∀ (evts : List (RunEvent F)) (loss : ℕ) (anyMat : Bool),
      processEvents der dop order bound algDeg precision evts loss anyMat
        = .done (some R) →
      remZeroB der dop R = true := by
  intro evts
  induction evts with
  | nil =>
    intro loss anyMat h
    unfold processEvents at h
    revert h
    cases anyMat <;> simp
  | cons e rest ih =>
    intro loss anyMat h
    cases e with
    | err => exact absurd h (by simp [processEvents])
    | mat ev =>
      unfold processEvents at h
      dsimp only at h
      split at h
      · exact absurd h (by simp)
      · rename_i R0 heq
        cases h
        exact strategyCascade_factor_remZero ev hadd hmul hdnz order bound
          algDeg heq
      · exact absurd h (by simp)
      · exact absurd h (by simp)
      · exact ih _ _ h

/-- Every factor returned by the trivial-monodromy fallback passed the
division test, and is the minimal-approximant candidate computed at the
truncation order `order * 2^k` of some retry `k` (all earlier retries
having failed the test). -/
theorem rwmit_factor_charact (env : FallbackEnv F) (der : F → F)
    (dop : List F) {R : List F} :
    ∀ (fuel : ℕ) (order : ℤ),
      rfactor_when_monodromy_is_trivial env der dop order fuel = some R →
      remZeroB der dop R = true ∧
        ∃ k < fuel, R = rwmit_candidate env dop (order * 2 ^ k) ∧
          ∀ j < k, remZeroB der dop
            (rwmit_candidate env dop (order * 2 ^ j)) = false := by
  intro fuel
  induction fuel with
  | zero => intro order h; exact absurd h (by simp [rfactor_when_monodromy_is_trivial])
  | succ f ih =>
    intro order h
    unfold rfactor_when_monodromy_is_trivial at h
    dsimp only at h
    split at h
    · rename_i hrz
      cases h
      refine ⟨hrz, 0, by omega, by rw [pow_zero, mul_one], ?_⟩
      intro j hj
      omega
    · rename_i hrz
      obtain ⟨h1, k, hk, h2, h3⟩ := ih (order * 2) h
      refine ⟨h1, k + 1, by omega, ?_, ?_⟩
      · rw [h2]
        congr 1
        ring
      · intro j hj
        cases j with
        | zero =>
          rw [pow_zero, mul_one]
          simpa using hrz
        | succ j1 =>
          have := h3 j1 (by omega)
          rw [show order * 2 * 2 ^ j1 = order * 2 ^ (j1 + 1) by ring] at this
          exact this

theorem rvmAux_factor_remZero (env : MonoEnv F) {der : F → F}
    (hadd : ∀ a b, der (a + b) = der a + der b)
    (hmul : ∀ a b, der (a * b) = der a * b + a * der b)
    {dop : List F} (hdnz : isZeroOp dop = false) {R : List F} :
    ∀ (fuel : ℕ) (p : MonoParams) (cidx : ℕ),
      rfactor_via_monodromy_aux env der dop p cidx fuel = .factor R →
      remZeroB der dop R = true := by
  intro fuel
  induction fuel with
  | zero => intro p cidx h; exact absurd h (by simp [rfactor_via_monodromy_aux])
  | succ f ih =>
    intro p cidx h
    unfold rfactor_via_monodromy_aux at h
    split at h
    · rename_i R0 hpe
      cases h
      exact processEvents_factor_remZero hadd hmul hdnz p.order p.bound
        p.algDegree p.precision (env.calls cidx) p.loss false hpe
    · exact absurd h (by simp)
    · split at h
      · rename_i R0 hfb
        cases h
        exact (rwmit_factor_charact env.fallback der dop (f + 1) p.order hfb).1
      · exact absurd h (by simp)
    · exact ih _ _ h
    · exact ih _ _ h

theorem rfactor_via_monodromy_factor_remZero (env : MonoEnv F) {der : F → F}
    (hadd : ∀ a b, der (a + b) = der a + der b)
    (hmul : ∀ a b, der (a * b) = der a * b + a * der b)
    {dop : List F} (hdnz : isZeroOp dop = false) {R : List F} (fuel : ℕ)
    (h : rfactor_via_monodromy env der dop fuel = .factor R) :
    remZeroB der dop R = true := by
  unfold rfactor_via_monodromy at h
  split at h
  · exact absurd h (by simp)
  · exact rvmAux_factor_remZero env hadd hmul hdnz fuel _ 0 h

/-- Contracts of the external layers used by `rfactor` and `factor`:
the derivation rules of `K(z)`, the specification of
`rational_solutions` and of the polynomial gcd, and the ring-isomorphism
properties of `annihilator_of_composition(z + s)` and its inverse. -/
structure RfContracts (env : RfEnv F) (der : F → F) : Prop where
  hadd : ∀ a b, der (a + b) = der a + der b
  hmul : ∀ a b, der (a * b) = der a * b + a * der b
  hrat : ∀ dop f fs, env.ratSols dop = f :: fs →
    f ≠ 0 ∧ applyOp der dop f = 0 ∧ env.gcdDeriv f ≠ 0
  hBackMul : ∀ A B s, Eqv (env.shiftBack (mulOp der A B) s)
    (mulOp der (env.shiftBack A s) (env.shiftBack B s))
  hBackCongr : ∀ A B s, Eqv A B →
    Eqv (env.shiftBack A s) (env.shiftBack B s)
  hBackFwd : ∀ A s, Eqv (env.shiftBack (env.shiftFwd A s) s) A
  hFwdNZ : ∀ A s, isZeroOp A = false → isZeroOp (env.shiftFwd A s) = false
  hBackNZ : ∀ A s, isZeroOp A = false → isZeroOp (env.shiftBack A s) = false

/-- Every factor returned by `rfactor` right-divides the input exactly:
the remainder test `dop % R == 0` holds of the returned operator. -/
theorem rfactor_factor_remZero (env : RfEnv F) {der : F → F}
    (hc : RfContracts env der) {dop R : List F} (fuel : ℕ)
    (h : rfactor env der dop fuel = .factor R) :
    remZeroB der dop R = true := by
  have hd0 := der_zero hc.hadd
  unfold rfactor at h
  split at h
  · exact absurd h (by simp)
  · rename_i hord
    have hdnz : isZeroOp dop = false := ordOp_pos_nonzero (by omega)
    set s0 := findShift (env.sings dop) with hs0
    set X := env.shiftFwd dop s0 with hXdef
    set dop2 := monicOp X with hdop2def
    split at h
    · rename_i R0 heq
      cases h
      unfold _try_rational at heq
      cases hrs : env.ratSols dop with
      | nil => rw [hrs] at heq; exact absurd heq (by simp)
      | cons f fs =>
        rw [hrs] at heq
        have hReq : cmul (env.gcdDeriv f)⁻¹ [-(der f), f] = R := by
          cases heq
          rfl
        obtain ⟨hf0, hdf, hg0⟩ := hc.hrat dop f fs hrs
        have hlist : cmul (env.gcdDeriv f)⁻¹ [-(der f), f]
            = [(env.gcdDeriv f)⁻¹ * (-(der f)), (env.gcdDeriv f)⁻¹ * f] := rfl
        have hb : (env.gcdDeriv f)⁻¹ * f ≠ 0 :=
          mul_ne_zero (inv_ne_zero hg0) hf0
        have hRnz : isZeroOp R = false := by
          rw [← hReq, hlist]
          exact isZeroOp_pair hb
        have hRord : ordOp R = 1 := by
          rw [← hReq, hlist]
          exact ordOp_pair hb
        have hRf : applyOp der R f = 0 := by
          rw [← hReq, hlist]
          show (env.gcdDeriv f)⁻¹ * (-(der f)) * f
            + ((env.gcdDeriv f)⁻¹ * f * der f + 0) = 0
          ring
        have h1 : applyOp der dop f
            = applyOp der (rquo der dop R) (applyOp der R f)
              + applyOp der (rrem der dop R) f := by
          rw [applyOp_congr der (rquo_rrem_spec der dop R) f, applyOp_addOp,
            applyOp_mulOp hc.hadd hc.hmul]
        rw [hdf, hRf, applyOp_at_zero hd0] at h1
        have hremf : applyOp der (rrem der dop R) f = 0 := by
          have h1s := h1.symm
          rw [zero_add] at h1s
          exact h1s
        rcases rrem_small hd0 dop hRnz with hz | hlt
        · exact hz
        · rw [hRord] at hlt
          have hc0 : ∀ n, 0 < n → coeff (rrem der dop R) n = 0 :=
            fun n hn => coeff_zero_of_gt_ordOp _ n (by omega)
          have hconst : Eqv (rrem der dop R)
              (constOp (coeff (rrem der dop R) 0)) := by
            intro n
            cases n with
            | zero => rfl
            | succ m => rw [hc0 (m + 1) (by omega), coeff_constOp_succ]
          have h2 : applyOp der (rrem der dop R) f
              = coeff (rrem der dop R) 0 * f := by
            rw [applyOp_congr der hconst f]
            show coeff (rrem der dop R) 0 * f + applyOp der [] (der f) = _
            show _ + 0 = _
            ring
          rw [h2] at hremf
          have h3 : coeff (rrem der dop R) 0 = 0 := by
            rcases mul_eq_zero.mp hremf with h | h
            · exact h
            · exact absurd h hf0
          have h4 : ∀ n, coeff (rrem der dop R) n = 0 := by
            intro n
            cases n with
            | zero => exact h3
            | succ m => exact hc0 (m + 1) (by omega)
          exact (isZeroOp_iff _).mpr h4
    · rename_i heqnone
      dsimp only at h
      rw [← hXdef, ← hdop2def] at h
      split at h
      · rename_i R2 hpipe
        cases h
        have hXnz : isZeroOp X = false := hc.hFwdNZ dop s0 hdnz
        have hlcX : lcOp X ≠ 0 := lcOp_ne_zero hXnz
        have hdop2nz : isZeroOp dop2 = false := by
          cases hz : isZeroOp dop2 with
          | false => rfl
          | true =>
            exfalso
            have h0 : ∀ n, coeff dop2 n = 0 := (isZeroOp_iff _).mp hz
            have h1 := h0 (ordOp X)
            rw [hdop2def] at h1
            have h2 : coeff (monicOp X) (ordOp X) = (lcOp X)⁻¹ * lcOp X := by
              rw [monicOp, coeff_cmul]
              rfl
            rw [h2, inv_mul_cancel₀ hlcX] at h1
            exact one_ne_zero h1
        have hrem2 : remZeroB der dop2 R2 = true :=
          rfactor_via_monodromy_factor_remZero _ hc.hadd hc.hmul hdop2nz
            fuel hpipe
        have hR2nz : isZeroOp R2 = false := remZero_nonzero hd0 hdop2nz hrem2
        have hXeq : Eqv X (cmul (lcOp X) dop2) := by
          intro n
          rw [coeff_cmul, hdop2def, monicOp, coeff_cmul, ← mul_assoc,
            mul_inv_cancel₀ hlcX, one_mul]
        have t2 : Eqv (cmul (lcOp X) dop2)
            (cmul (lcOp X) (mulOp der (rquo der dop2 R2) R2)) := by
          intro n
          rw [coeff_cmul, coeff_cmul, remZero_eqv_mul hrem2 n]
        have t3 : Eqv (cmul (lcOp X) (mulOp der (rquo der dop2 R2) R2))
            (mulOp der (cmul (lcOp X) (rquo der dop2 R2)) R2) :=
          (mulOp_cmul_left der (rquo der dop2 R2) (lcOp X) R2).symm
        have e2 : Eqv X
            (mulOp der (cmul (lcOp X) (rquo der dop2 R2)) R2) :=
          hXeq.trans (t2.trans t3)
        have e3 : Eqv (env.shiftBack X s0)
            (mulOp der (env.shiftBack (cmul (lcOp X) (rquo der dop2 R2)) s0)
              (env.shiftBack R2 s0)) :=
          (hc.hBackCongr _ _ s0 e2).trans (hc.hBackMul _ _ s0)
        have efin : Eqv dop
            (mulOp der (env.shiftBack (cmul (lcOp X) (rquo der dop2 R2)) s0)
              (env.shiftBack R2 s0)) :=
          ((hc.hBackFwd dop s0).symm).trans e3
        have hRnz2 : isZeroOp (env.shiftBack R2 s0) = false :=
          hc.hBackNZ R2 s0 hR2nz
        exact remZeroB_of_left_multiple hc.hadd hc.hmul hRnz2 efin
      · exact absurd h (by simp)
      · exact absurd h (by simp)

theorem prodOps_append {der : F → F}
    (hadd : ∀ a b, der (a + b) = der a + der b)
    (hmul : ∀ a b, der (a * b) = der a * b + a * der b)
    (l1 l2 : List (List F)) :
    Eqv (prodOps der (l1 ++ l2))
      (mulOp der (prodOps der l1) (prodOps der l2)) := by
  induction l1 with
  | nil =>
    show Eqv (prodOps der l2) (mulOp der oneOp (prodOps der l2))
    exact (oneOp_mulOp der _).symm
  | cons x xs ih =>
    show Eqv (mulOp der x (prodOps der (xs ++ l2))) _
    exact (mulOp_congr_right (der_zero hadd) x ih).trans
      (mulOp_assoc hadd hmul x (prodOps der xs) (prodOps der l2)).symm

/-- The factorization invariant of `_factor`: the product of the returned
list equals the input operator. -/
theorem factorAux_prod (env : RfEnv F) {der : F → F}
    (hc : RfContracts env der) :
    ∀ (fuel : ℕ) (dop : List F) (l : List (List F)),
      factorAux env der fuel dop = some l →
      Eqv (prodOps der l) dop := by
  intro fuel
  induction fuel with
  | zero =>
    intro dop l h
    exact absurd h (by simp [factorAux])
  | succ n ih =>
    intro dop l h
    unfold factorAux at h
    split at h
    · exact absurd h (by simp)
    · have hl : l = [dop] := by
        cases h
        rfl
      subst hl
      show Eqv (mulOp der dop oneOp) dop
      exact mulOp_oneOp_right hc.hadd hc.hmul dop
    · rename_i R hrf
      split at h
      · rename_i l1 l2 h1 h2
        cases h
        have e1 := ih (rquo der dop R) l1 h1
        have e2 := ih R l2 h2
        have hrz := rfactor_factor_remZero env hc n hrf
        have e3 := prodOps_append hc.hadd hc.hmul l1 l2
        have e4 : Eqv (mulOp der (prodOps der l1) (prodOps der l2))
            (mulOp der (rquo der dop R) R) :=
          mulOp_congr (der_zero hc.hadd) e1 e2
        exact e3.trans (e4.trans (remZero_eqv_mul hrz).symm)
      all_goals exact absurd h (by simp)

/-!
## Concrete instances over `ℚ`

`K(z)` instantiated at the zero derivation (the subfield of constants),
used to run the embedded functions on explicit inputs.
-/

/-- The zero derivation on `ℚ`. -/
def derQ : ℚ → ℚ := fun _ => 0

theorem derQ_add : ∀ a b : ℚ, derQ (a + b) = derQ a + derQ b := by
  intro a b
  simp [derQ]

theorem derQ_mul : ∀ a b : ℚ, derQ (a * b) = derQ a * b + a * derQ b := by
  intro a b
  simp [derQ]

theorem applyOp_derQ_zero_arg : ∀ P : List ℚ, applyOp derQ P 0 = 0
  | [] => rfl
  | a :: as => by
    show a * 0 + applyOp derQ as (derQ 0) = 0
    rw [mul_zero]
    show 0 + applyOp derQ as 0 = 0
    rw [applyOp_derQ_zero_arg as, add_zero]

/-- Under the zero derivation an operator acts by multiplication by its
constant coefficient. -/
theorem applyOp_derQ (P : List ℚ) (x : ℚ) : applyOp derQ P x = coeff P 0 * x := by
  cases P with
  | nil =>
    show (0 : ℚ) = coeff ([] : List ℚ) 0 * x
    rw [coeff_nil, zero_mul]
  | cons a as =>
    show a * x + applyOp derQ as (derQ 0) = coeff (a :: as) 0 * x
    show a * x + applyOp derQ as 0 = a * x
    rw [applyOp_derQ_zero_arg as, add_zero]

/-- A ball entry whose rational-recognition pass succeeds with value `1`. -/
def ballOkQ : BallEntry ℚ :=
  ⟨true, 1, 1, fun _ _ => 0, fun _ => 0, fun _ => false⟩

/-- A ball entry whose imaginary part excludes zero. -/
def ballBadQ : BallEntry ℚ :=
  ⟨false, 0, 0, fun _ _ => 0, fun _ => 0, fun _ => false⟩

/-- An `annihilator` oracle bundle answering `Inconclusive`: the rational
pass fails and the accuracy (5 bits) is below the 30-bit gate. -/
def annEnvIncQ : AnnEnv ℚ :=
  ⟨1, [ballBadQ], 5, true, true, fun _ => [[1]], fun _ _ => none, fun g _ => g,
    fun _ _ => ([], [])⟩

/-- An `annihilator` oracle bundle steering into the Hermite-Pade path and
returning the order-zero operator `[1]` (which passes `dop % R == 0`). -/
def annEnvHP1Q : AnnEnv ℚ :=
  ⟨1, [ballOkQ], 35, true, false, fun _ => [[1]], fun _ _ => none, fun g _ => g,
    fun _ _ => ([[(1 : ℚ)]], [0, 2])⟩

/-- An `annihilator` oracle bundle steering into the Hermite-Pade path and
returning the proper factor `D` (coefficient list `[0, 1]`). -/
def annEnvHPDQ : AnnEnv ℚ :=
  ⟨1, [ballOkQ], 35, true, false, fun _ => [[1]], fun _ _ => none, fun g _ => g,
    fun _ _ => ([[(0 : ℚ), 1]], [0, 2])⟩

def seEnvTrivQ : SimpleEnv ℚ := ⟨10, []⟩

def meEnvTrivQ : MultEnv ℚ := ⟨false, annEnvIncQ⟩

/-- One one-dimensional eigenspace whose `annihilator` call returns `[1]`. -/
def odEnvHP1Q : OneDimEnv ℚ := ⟨10, [⟨1, annEnvHP1Q⟩]⟩

/-- Two one-dimensional eigenspaces: `annihilator` is inconclusive on the
first basis vector and finds the proper factor `D` on the second. -/
def odEnvC4 : OneDimEnv ℚ := ⟨10, [⟨1, annEnvIncQ⟩, ⟨1, annEnvHPDQ⟩]⟩

def matEventHP1Q : MatEvent ℚ := ⟨200, odEnvHP1Q, seEnvTrivQ, meEnvTrivQ⟩

def degEnvTrivQ : DegEnv := ⟨0, [], []⟩

def fbEnvTrivQ : FallbackEnv ℚ := ⟨fun _ => [], fun _ _ => ([], [])⟩

/-- A monodromy-pipeline oracle delivering one matrix whose strategy run
returns the factor `[1]`. -/
def monoEnvHP1Q : MonoEnv ℚ :=
  ⟨fun _ => [.mat matEventHP1Q], fbEnvTrivQ, 0, 1, degEnvTrivQ⟩

/-- An `rfactor` oracle with a rational solution `1` on operators with
vanishing constant coefficient, and identity base-point shifts. -/
def rfEnvRatQ : RfEnv ℚ :=
  ⟨fun dop => if coeff dop 0 = 0 then [1] else [], fun _ => 1, fun _ => [],
    fun P _ => P, fun P _ => P, fun _ => none, fun _ => monoEnvHP1Q⟩

/-- An `rfactor` oracle with no rational solutions, whose monodromy
pipeline returns the order-zero factor `[1]`. -/
def rfEnvC2 : RfEnv ℚ :=
  ⟨fun _ => [], fun _ => 1, fun _ => [], fun P _ => P, fun P _ => P,
    fun _ => none, fun _ => monoEnvHP1Q⟩

/-- Same as `rfEnvC2` except that the van Hoeij oracle finds the factor
`[5, 1]`. -/
def rfEnvC3 : RfEnv ℚ :=
  ⟨fun _ => [], fun _ => 1, fun _ => [], fun P _ => P, fun P _ => P,
    fun _ => some [(5 : ℚ), 1], fun _ => monoEnvHP1Q⟩

theorem rfContractsRatQ : RfContracts rfEnvRatQ derQ := by
  refine ⟨derQ_add, derQ_mul, ?_, ?_, ?_, ?_, ?_, ?_⟩
  · intro dop f fs h
    dsimp only [rfEnvRatQ] at h
    split at h
    · rename_i h0
      cases h
      refine ⟨one_ne_zero, ?_, one_ne_zero⟩
      rw [applyOp_derQ, h0, zero_mul]
    · exact absurd h (by simp)
  · intro A B s
    exact Eqv.refl _
  · intro A B s h
    exact h
  · intro A s
    exact Eqv.refl _
  · intro A s h
    exact h
  · intro A s h
    exact h

/-- The fallback oracle of the C5 comparison: the approximant basis
depends on the requested order (sigma = 3 versus sigma = 4). -/
def fbEnvC5 : FallbackEnv ℚ :=
  ⟨fun _ => [1],
    fun _ n => if n = 3 then ([[(1 : ℚ)]], [0]) else ([[(0 : ℚ), 1]], [0])⟩

/-- A fallback oracle whose approximant row is the proper factor `D`. -/
def fbEnvW : FallbackEnv ℚ := ⟨fun _ => [1], fun _ _ => ([[(0 : ℚ), 1]], [0])⟩

/-- The degree-bound oracle of the C8 witness: one finite place with
exponent modulus `3/2`, no exponents at infinity. -/
def degEnvW : DegEnv := ⟨1, [[(3 : ℚ) / 2]], []⟩

/-!
## Recursion equations of the retry loop
-/

theorem rvmAux_precErr_step (env : MonoEnv F) (der : F → F) (dop : List F)
    (p : MonoParams) (cidx fuel l : ℕ)
    (h : processEvents der dop p.order p.bound p.algDegree p.precision
      (env.calls cidx) p.loss false = .precErr l) :
    rfactor_via_monodromy_aux env der dop p cidx (fuel + 1)
      = rfactor_via_monodromy_aux env der dop (paramsAfterError p l)
          (cidx + 1) fuel := by
  conv_lhs => rw [rfactor_via_monodromy_aux]
  rw [h]

theorem rvmAux_exhaust_step (env : MonoEnv F) (der : F → F) (dop : List F)
    (p : MonoParams) (cidx fuel l : ℕ)
    (h : processEvents der dop p.order p.bound p.algDegree p.precision
      (env.calls cidx) p.loss false = .exhaust l) :
    rfactor_via_monodromy_aux env der dop p cidx (fuel + 1)
      = rfactor_via_monodromy_aux env der dop
          (paramsAfterExhaustion (ordOp dop) p l) (cidx + 1) fuel := by
  conv_lhs => rw [rfactor_via_monodromy_aux]
  rw [h]

/-!
## Characterization of the exponent maximum
-/

theorem placeLargestModulus_ge (exps : List ℚ) :
    ∀ x ∈ exps, ⌈x⌉ ≤ placeLargestModulus exps := by
  intro x hx
  unfold placeLargestModulus
  cases hm : (exps.map (fun y => ⌈y⌉)).max? with
  | none =>
    exfalso
    rw [List.max?_eq_none_iff, List.map_eq_nil_iff] at hm
    rw [hm] at hx
    exact List.not_mem_nil x hx
  | some m =>
    show ⌈x⌉ ≤ m
    have hle := (List.max?_le_iff (fun a b c => max_le_iff) hm).1 (le_refl m)
    exact hle ⌈x⌉ (List.mem_map_of_mem _ hx)

theorem placeLargestModulus_attained (exps : List ℚ) :
    placeLargestModulus exps = 0 ∨
      ∃ x ∈ exps, ⌈x⌉ = placeLargestModulus exps := by
  unfold placeLargestModulus
  cases hm : (exps.map (fun y => ⌈y⌉)).max? with
  | none => exact Or.inl rfl
  | some m =>
    right
    have hmem : m ∈ exps.map (fun y => ⌈y⌉) :=
      List.max?_mem (fun a b => max_choice a b) hm
    obtain ⟨x, hx, hxm⟩ := List.mem_map.mp hmem
    exact ⟨x, hx, hxm⟩

theorem foldl_place_ge_init :
    ∀ (L : List (List ℚ)) (a : ℤ),
      a ≤ L.foldl (fun out exps => max (placeLargestModulus exps) out) a := by
  intro L
  induction L with
  | nil => intro a; exact le_refl a
  | cons e rest ih =>
    intro a
    calc a ≤ max (placeLargestModulus e) a := le_max_right _ _
    _ ≤ rest.foldl (fun out exps => max (placeLargestModulus exps) out)
        (max (placeLargestModulus e) a) := ih _

theorem foldl_place_ge_mem :
    ∀ (L : List (List ℚ)) (a : ℤ), ∀ exps ∈ L,
      placeLargestModulus exps
        ≤ L.foldl (fun out exps => max (placeLargestModulus exps) out) a := by
  intro L
  induction L with
  | nil =>
    intro a exps h
    exact absurd h (List.not_mem_nil exps)
  | cons e rest ih =>
    intro a exps h
    rcases List.mem_cons.mp h with he | hr
    · subst he
      calc placeLargestModulus exps ≤ max (placeLargestModulus exps) a :=
          le_max_left _ _
      _ ≤ rest.foldl (fun out exps => max (placeLargestModulus exps) out)
          (max (placeLargestModulus exps) a) := foldl_place_ge_init rest _
    · exact ih _ exps hr

theorem foldl_place_attained :
    ∀ (L : List (List ℚ)) (a : ℤ),
      L.foldl (fun out exps => max (placeLargestModulus exps) out) a = a ∨
        ∃ exps ∈ L, placeLargestModulus exps
          = L.foldl (fun out exps => max (placeLargestModulus exps) out) a := by
  intro L
  induction L with
  | nil => intro a; exact Or.inl rfl
  | cons e rest ih =>
    intro a
    simp only [List.foldl_cons]
    rcases ih (max (placeLargestModulus e) a) with h | ⟨exps, hmem, heq⟩
    · rcases max_choice (placeLargestModulus e) a with hm | hm
      · right
        refine ⟨e, List.mem_cons_self e rest, ?_⟩
        rw [h, hm]
      · left
        rw [h, hm]
    · right
      exact ⟨exps, List.mem_cons_of_mem e hmem, heq⟩

/-!
## The claims
-/

/-- C1: for every input operator on which `factor` terminates and returns
a list `[L1, ..., Lk]`, the Ore product `L1 * L2 * ... * Lk` equals the
input operator exactly (coefficient-wise; the final unification of
coefficient fields is the identity in this single-field embedding), under
the contracts of the external layers (`rational_solutions` and the
base-point shift `annihilator_of_composition`). -/
theorem C1_factor_product (env : RfEnv F) {der : F → F}
    (hc : RfContracts env der) (dop : List F) (fuel : ℕ)
    (l : List (List F)) (h : factor env der dop fuel = some l) :
    Eqv (prodOps der l) dop :=
  factorAux_prod env hc fuel dop l h

theorem C1_factor_product_witness :
    factor rfEnvRatQ derQ [(1 : ℚ)] 1 = some [[(1 : ℚ)]] ∧
    Eqv (prodOps derQ [[(1 : ℚ)]]) [(1 : ℚ)] :=
  ⟨rfl, C1_factor_product rfEnvRatQ rfContractsRatQ [(1 : ℚ)] 1 [[(1 : ℚ)]] rfl⟩

/-- C2 (amended): every operator returned as a factor by `rfactor` (on
any of its paths: the rational probe, the eigenspace strategies including
the adjoint path of `simple_eigenvalue`, `annihilator`, and the
trivial-monodromy fallback) satisfies the exact right-division test
`dop % R == 0`, under the contracts of the external layers.  The order
bounds `0 < order(R) < order(dop)` of the original claim are NOT enforced
on every path (see the counterexample). -/
theorem C2_rfactor_divides (env : RfEnv F) {der : F → F}
    (hc : RfContracts env der) (dop R : List F) (fuel : ℕ)
    (h : rfactor env der dop fuel = .factor R) :
    remZeroB der dop R = true :=
  rfactor_factor_remZero env hc fuel h

theorem C2_rfactor_divides_witness :
    rfactor rfEnvRatQ derQ [(0 : ℚ), 0, 1] 1 = .factor [(0 : ℚ), 1] ∧
    remZeroB derQ [(0 : ℚ), 0, 1] [(0 : ℚ), 1] = true :=
  ⟨by with_unfolding_all rfl,
    C2_rfactor_divides rfEnvRatQ rfContractsRatQ [(0 : ℚ), 0, 1]
      [(0 : ℚ), 1] 1 (by with_unfolding_all rfl)⟩

/-- C2, counterexample to the original order bounds: on the operator
`D^2`, with the Hermite-Pade path delivering the approximant row `[1]`
(whose division test `dop % [1] == 0` trivially passes and whose row
degrees pass the gap check `max(rdeg) > 1 + min(rdeg)`), `rfactor`
returns the order-zero operator `[1]`, violating `0 < order(R)`. -/
theorem C2_order_zero_counterexample :
    rfactor rfEnvC2 derQ [(0 : ℚ), 0, 1] 1 = .factor [(1 : ℚ)] ∧
    ordOp [(1 : ℚ)] = 0 ∧ ordOp [(0 : ℚ), 0, 1] = 2 :=
  ⟨by with_unfolding_all rfl, rfl, rfl⟩

/-- `rfactor`'s oracle bundle with the van Hoeij field replaced. -/
def withVanHoeij (env : RfEnv F) (vh : List F → Option (List F)) : RfEnv F :=
  ⟨env.ratSols, env.gcdDeriv, env.sings, env.shiftFwd, env.shiftBack, vh,
    env.monoEnv⟩

/-- C3 (amended): `rfactor` never invokes a van Hoeij exponent search:
its result is unchanged under any replacement of the van Hoeij oracle,
and after the rational-solutions probe fails it enters the monodromy
pipeline directly (the `try_van_hoeij` step exists only in the other
version of `factorization.py`, not in the analyzed source). -/
theorem C3_rfactor_ignores_vanhoeij (env : RfEnv F) (der : F → F)
    (dop : List F) (fuel : ℕ) (vh : List F → Option (List F)) :
    rfactor (withVanHoeij env vh) der dop fuel = rfactor env der dop fuel := rfl

/-- C3, counterexample to the claimed van Hoeij step: on `D^2` (order 2,
no rational solutions) the van Hoeij oracle finds the factor `[5, 1]`,
yet `rfactor` returns the monodromy-pipeline factor `[1]` instead of the
van Hoeij factor: the search is never invoked. -/
theorem C3_no_vanhoeij_counterexample :
    ordOp [(0 : ℚ), 0, 1] = 2 ∧
    rfEnvC3.ratSols [(0 : ℚ), 0, 1] = [] ∧
    rfEnvC3.vanHoeij [(0 : ℚ), 0, 1] = some [(5 : ℚ), 1] ∧
    rfactor rfEnvC3 derQ [(0 : ℚ), 0, 1] 1 = .factor [(1 : ℚ)] ∧
    some [(1 : ℚ)] ≠ rfEnvC3.vanHoeij [(0 : ℚ), 0, 1] :=
  ⟨rfl, rfl, rfl, by with_unfolding_all rfl, by decide⟩

/-- C4, exhibit of the bug: two one-dimensional eigenspaces; the
`annihilator` oracle of the first answers `"Inconclusive"`, the one of
the second finds the verified proper factor `D`; yet
`one_dimensional_eigenspaces` returns `Inconclusive` without examining
the second eigenvector, because the source's comparison `R != dop` is
true for the string `"Inconclusive"` and the string is returned
immediately. -/
theorem C4_one_dimensional_bug :
    one_dimensional_eigenspaces odEnvC4 derQ [(0 : ℚ), 0, 1] 1 1 1
      = .Inconclusive ∧
    odEnvC4.spaces.map (fun sp => sp.annE) = [annEnvIncQ, annEnvHPDQ] ∧
    annihilator annEnvIncQ derQ [(0 : ℚ), 0, 1] 1 1 1 = .Inconclusive ∧
    annihilator annEnvHPDQ derQ [(0 : ℚ), 0, 1] 1 1 1 = .factor [(0 : ℚ), 1] ∧
    remZeroB derQ [(0 : ℚ), 0, 1] [(0 : ℚ), 1] = true ∧
    ordOp [(0 : ℚ), 1] = 1 :=
  ⟨rfl, rfl, rfl, by with_unfolding_all rfl, by with_unfolding_all rfl, rfl⟩

/-- C5 (amended): every answer of the trivial-monodromy fallback passed
the division test `dop % R == 0` and is the minimal-approximant candidate
(first local solution expanded to `order + r` terms, matrix of successive
derivatives, approximant basis at `max(order // r, 1)` — floor division,
not the ceiling `⌈order/r⌉` of the original claim —, row of minimal row
degree) computed at the truncation order `order * 2^k` of some retry `k`,
all earlier retries having failed the test. -/
theorem C5_fallback_characterization (env : FallbackEnv F) (der : F → F)
    (dop R : List F) (fuel : ℕ) (order : ℤ)
    (h : rfactor_when_monodromy_is_trivial env der dop order fuel = some R) :
    remZeroB der dop R = true ∧
      ∃ k < fuel, R = rwmit_candidate env dop (order * 2 ^ k) ∧
        ∀ j < k, remZeroB der dop
          (rwmit_candidate env dop (order * 2 ^ j)) = false :=
  rwmit_factor_charact env der dop fuel order h

theorem C5_fallback_witness :
    rfactor_when_monodromy_is_trivial fbEnvW derQ [(0 : ℚ), 0, 1] 4 1
      = some [(0 : ℚ), 1] ∧
    (remZeroB derQ [(0 : ℚ), 0, 1] [(0 : ℚ), 1] = true ∧
      ∃ k < 1, [(0 : ℚ), 1]
          = rwmit_candidate fbEnvW [(0 : ℚ), 0, 1] (4 * 2 ^ k) ∧
        ∀ j < k, remZeroB derQ [(0 : ℚ), 0, 1]
          (rwmit_candidate fbEnvW [(0 : ℚ), 0, 1] (4 * 2 ^ j)) = false) :=
  ⟨by with_unfolding_all rfl,
    C5_fallback_characterization fbEnvW derQ [(0 : ℚ), 0, 1] [(0 : ℚ), 1] 1 4
      (by with_unfolding_all rfl)⟩

/-- C5, counterexample to the claimed approximant order: the source uses
`max(order // r, 1)` (floor), the claim prescribes `⌈order/r⌉`; at
`order = 10`, `r = 3` these differ (3 versus 4), and with an approximant
oracle sensitive to that order the source fallback and the claim's
version return different factors on the same input. -/
theorem C5_sigma_counterexample :
    rwmit_sigma 10 3 = 3 ∧ rwmit_sigma_spec 10 3 = 4 ∧
    rfactor_when_monodromy_is_trivial fbEnvC5 derQ [(0 : ℚ), 0, 0, 1] 10 1
      = some [(1 : ℚ)] ∧
    rwmit_specVersion fbEnvC5 derQ [(0 : ℚ), 0, 0, 1] 10 1
      = some [(0 : ℚ), 1] ∧
    some [(1 : ℚ)] ≠ some [(0 : ℚ), 1] :=
  ⟨rfl, rfl, by with_unfolding_all rfl, by with_unfolding_all rfl, by decide⟩

/-- C6: on every retry of the monodromy pipeline the parameters follow
the claimed updates: after a `PrecisionError` (or `ZeroDivisionError`)
the recursion continues with precision increased by
`max(150, precision - loss)` and order and algebraic degree unchanged;
after exhausting the matrices inconclusively it continues with the same
precision increase, order `min(bound*(r+1)+1, 2*order)` and algebraic
degree raised by one; the precision grows by at least 150 in both
cases. -/
theorem C6_retry_growth (env : MonoEnv F) (der : F → F) (dop : List F)
    (p : MonoParams) (cidx fuel l : ℕ) :
    (processEvents der dop p.order p.bound p.algDegree p.precision
        (env.calls cidx) p.loss false = .precErr l →
      rfactor_via_monodromy_aux env der dop p cidx (fuel + 1)
        = rfactor_via_monodromy_aux env der dop (paramsAfterError p l)
            (cidx + 1) fuel) ∧
    (processEvents der dop p.order p.bound p.algDegree p.precision
        (env.calls cidx) p.loss false = .exhaust l →
      rfactor_via_monodromy_aux env der dop p cidx (fuel + 1)
        = rfactor_via_monodromy_aux env der dop
            (paramsAfterExhaustion (ordOp dop) p l) (cidx + 1) fuel) ∧
    (paramsAfterError p l).precision
      = p.precision + max 150 (p.precision - l) ∧
    (paramsAfterError p l).order = p.order ∧
    (paramsAfterError p l).algDegree = p.algDegree ∧
    (paramsAfterExhaustion (ordOp dop) p l).precision
      = p.precision + max 150 (p.precision - l) ∧
    (paramsAfterExhaustion (ordOp dop) p l).order
      = min (p.bound * ((ordOp dop : ℤ) + 1) + 1) (2 * p.order) ∧
    (paramsAfterExhaustion (ordOp dop) p l).algDegree = p.algDegree + 1 ∧
    p.precision + 150 ≤ (paramsAfterError p l).precision ∧
    p.precision + 150 ≤ (paramsAfterExhaustion (ordOp dop) p l).precision := by
  refine ⟨rvmAux_precErr_step env der dop p cidx fuel l,
    rvmAux_exhaust_step env der dop p cidx fuel l, rfl, rfl, rfl, rfl,
    ?_, rfl, ?_, ?_⟩
  · show min (p.bound * ((ordOp dop : ℤ) + 1) + 1) (p.order * 2) = _
    rw [mul_comm (2 : ℤ) p.order]
  · show p.precision + 150 ≤ p.precision + max 150 (p.precision - l)
    have h1 : 150 ≤ max 150 (p.precision - l) := le_max_left _ _
    omega
  · show p.precision + 150 ≤ p.precision + max 150 (p.precision - l)
    have h1 : 150 ≤ max 150 (p.precision - l) := le_max_left _ _
    omega

/-- C7: on its first invocation (all optional arguments defaulted) the
monodromy pipeline starts its retry recursion at truncation order
`max(min(r*d, 100, bound*(r+1)+1), 1)`, bound the degree bound computed
for right factors, algebraic degree the degree of the base field, working
precision `50*(r+1)`, and loss `0`. -/
theorem C7_initial_params (env : MonoEnv F) (der : F → F) (dop : List F)
    (fuel : ℕ) (b : ℤ)
    (hb : _degree_bound_for_right_factor env.degData dop = some b) :
    rfactor_via_monodromy env der dop fuel
      = rfactor_via_monodromy_aux env der dop
          ⟨max (min (min ((ordOp dop * env.dopDegree : ℕ) : ℤ) 100)
              (b * ((ordOp dop : ℤ) + 1) + 1)) 1,
            b, env.baseFieldDegree, 50 * (ordOp dop + 1), 0⟩ 0 fuel := by
  unfold rfactor_via_monodromy
  rw [hb]
  rfl

theorem C7_initial_params_witness :
    _degree_bound_for_right_factor monoEnvHP1Q.degData [(0 : ℚ), 0, 1]
      = some 0 ∧
    rfactor_via_monodromy monoEnvHP1Q derQ [(0 : ℚ), 0, 1] 2
      = rfactor_via_monodromy_aux monoEnvHP1Q derQ [(0 : ℚ), 0, 1]
          ⟨max (min (min
              ((ordOp [(0 : ℚ), 0, 1] * monoEnvHP1Q.dopDegree : ℕ) : ℤ) 100)
              (0 * ((ordOp [(0 : ℚ), 0, 1] : ℤ) + 1) + 1)) 1,
            0, monoEnvHP1Q.baseFieldDegree,
            50 * (ordOp [(0 : ℚ), 0, 1] + 1), 0⟩ 0 2 :=
  ⟨by with_unfolding_all rfl,
    C7_initial_params monoEnvHP1Q derQ [(0 : ℚ), 0, 1] 2 0
      (by with_unfolding_all rfl)⟩

theorem int_of_den_one {q : ℚ} (h : q.den = 1) : ((q.num : ℚ)) = q := by
  have h2 := Rat.num_div_den q
  rw [h] at h2
  simpa using h2

/-- C8: whenever `_degree_bound_for_right_factor` returns an integer `b`,
that integer equals `r^2*(S+1)*E + r*S + r^2*(r-1)*(S-1)/2` exactly
(`r = order(L) - 1`, `S` the number of roots of the leading coefficient),
where the largest exponent modulus `E` is nonnegative, bounds the
ceilings of all exponent moduli over all places of the reduced leading
coefficient including infinity, and is `0` or attained by one of them. -/
theorem C8_degree_bound_charact (env : DegEnv) (dop : List F) (b : ℤ)
    (h : _degree_bound_for_right_factor env dop = some b) :
    ((b : ℚ)
      = (((ordOp dop : ℤ) - 1) ^ 2 * ((env.numSingularities : ℤ) + 1)
            * _largest_modulus_of_exponents env
            + ((ordOp dop : ℤ) - 1) * (env.numSingularities : ℤ) : ℤ)
        + ((((ordOp dop : ℤ) - 1) ^ 2 * ((ordOp dop : ℤ) - 1 - 1)
            * ((env.numSingularities : ℤ) - 1) : ℤ) : ℚ) / 2) ∧
    0 ≤ _largest_modulus_of_exponents env ∧
    (∀ exps ∈ env.factorExps ++ [env.infExps], ∀ x ∈ exps,
      ⌈x⌉ ≤ _largest_modulus_of_exponents env) ∧
    (_largest_modulus_of_exponents env = 0 ∨
      ∃ exps ∈ env.factorExps ++ [env.infExps], ∃ x ∈ exps,
        ⌈x⌉ = _largest_modulus_of_exponents env) := by
  have hE0 : (0 : ℤ) ≤ _largest_modulus_of_exponents env := by
    unfold _largest_modulus_of_exponents
    exact foldl_place_ge_init _ 0
  have hEub : ∀ exps ∈ env.factorExps ++ [env.infExps], ∀ x ∈ exps,
      ⌈x⌉ ≤ _largest_modulus_of_exponents env := by
    intro exps hmem x hx
    unfold _largest_modulus_of_exponents
    exact le_trans (placeLargestModulus_ge exps x hx)
      (foldl_place_ge_mem _ 0 exps hmem)
  have hEat : _largest_modulus_of_exponents env = 0 ∨
      ∃ exps ∈ env.factorExps ++ [env.infExps], ∃ x ∈ exps,
        ⌈x⌉ = _largest_modulus_of_exponents env := by
    unfold _largest_modulus_of_exponents
    rcases foldl_place_attained (env.factorExps ++ [env.infExps]) 0
      with h0 | hat
    · exact Or.inl h0
    · obtain ⟨exps, hmem, heq⟩ := hat
      rcases placeLargestModulus_attained exps with hz | ⟨x, hx, hxe⟩
      · exact Or.inl (by rw [← heq, hz])
      · exact Or.inr ⟨exps, hmem, x, hx, by rw [hxe, heq]⟩
  unfold _degree_bound_for_right_factor at h
  dsimp only at h
  split at h
  · rename_i hden
    cases h
    exact ⟨int_of_den_one hden, hE0, hEub, hEat⟩
  · exact absurd h (by simp)

theorem C8_degree_bound_witness :
    _degree_bound_for_right_factor degEnvW [(0 : ℚ), 0, 1] = some 5 ∧
    (((5 : ℤ) : ℚ)
      = (((ordOp [(0 : ℚ), 0, 1] : ℤ) - 1) ^ 2
            * ((degEnvW.numSingularities : ℤ) + 1)
            * _largest_modulus_of_exponents degEnvW
            + ((ordOp [(0 : ℚ), 0, 1] : ℤ) - 1)
              * (degEnvW.numSingularities : ℤ) : ℤ)
        + ((((ordOp [(0 : ℚ), 0, 1] : ℤ) - 1) ^ 2
            * ((ordOp [(0 : ℚ), 0, 1] : ℤ) - 1 - 1)
            * ((degEnvW.numSingularities : ℤ) - 1) : ℤ) : ℚ) / 2) ∧
    (0 ≤ _largest_modulus_of_exponents degEnvW) ∧
    (∀ exps ∈ degEnvW.factorExps ++ [degEnvW.infExps], ∀ x ∈ exps,
      ⌈x⌉ ≤ _largest_modulus_of_exponents degEnvW) ∧
    (_largest_modulus_of_exponents degEnvW = 0 ∨
      ∃ exps ∈ degEnvW.factorExps ++ [degEnvW.infExps], ∃ x ∈ exps,
        ⌈x⌉ = _largest_modulus_of_exponents degEnvW) := by
  have h := C8_degree_bound_charact degEnvW [(0 : ℚ), 0, 1] 5
    (by with_unfolding_all rfl)
  exact ⟨by with_unfolding_all rfl, h.1, h.2.1, h.2.2.1, h.2.2.2⟩

/-- C9: when the rational-recognition pass of
`_guess_symbolic_coefficients` fails (some entry's imaginary part
excludes zero, or the two nearby-rational approximations disagree), the
function returns `NothingFound` without attempting algebraic recognition
if the accuracy is below 30 bits; and at the first stable `algdep`
degree, `NothingFound` is returned unless every recognized value lies
inside the corresponding ball entry. -/
theorem C9_guess_gates {α : Type} (vec : List (BallEntry α)) (p : ℕ)
    (fieldIsQQ : Bool) (alg_degree : ℕ)
    (hfail : ¬ ((vec.takeWhile (fun x => x.imagContainsZero)).length
        = vec.length
      ∧ (vec.takeWhile (fun x => x.imagContainsZero)).map (fun x => x.nearby1)
        = (vec.takeWhile (fun x => x.imagContainsZero)).map
            (fun x => x.nearby2))) :
    (p < 30 → _guess_symbolic_coefficients vec p fieldIsQQ alg_degree
        = .nothingFound) ∧
    (∀ d, firstStableDegree vec p alg_degree = some d →
      vec.all (fun x => x.rootInBall d) = false →
      _guess_symbolic_coefficients vec p fieldIsQQ alg_degree
        = .nothingFound) := by
  unfold _guess_symbolic_coefficients
  dsimp only
  rw [if_neg hfail]
  constructor
  · intro hp
    rw [if_pos hp]
  · intro d hd hnb
    by_cases hp : p < 30
    · rw [if_pos hp]
    · rw [if_neg hp, hd]
      simp [hnb]

theorem C9_guess_gates_witness :
    (5 < 30 → _guess_symbolic_coefficients [ballBadQ] 5 true 1
        = GuessSymbOut.nothingFound) ∧
    (∀ d, firstStableDegree [ballBadQ] 5 1 = some d →
      [ballBadQ].all (fun x => x.rootInBall d) = false →
      _guess_symbolic_coefficients [ballBadQ] 5 true 1
        = GuessSymbOut.nothingFound) :=
  C9_guess_gates [ballBadQ] 5 true 1 (by decide)

/-- C10: the formal adjoint `myadjoint`, translated from the source's
`sum((-D)**i * p_i)`, is an involution: applying it twice returns the
original operator coefficient-wise; this underlies `simple_eigenvalue`
returning `myadjoint(adj_dop // adj_Q)` as a right factor of `dop`. -/
theorem C10_adjoint_involution {der : F → F}
    (hadd : ∀ a b, der (a + b) = der a + der b)
    (hmul : ∀ a b, der (a * b) = der a * b + a * der b) (dop : List F) :
    Eqv (myadjoint der (myadjoint der dop)) dop :=
  myadjoint_involutive hadd hmul dop

theorem C10_adjoint_involution_witness :
    Eqv (myadjoint derQ (myadjoint derQ [(1 : ℚ), 2, 3])) [(1 : ℚ), 2, 3] :=
  C10_adjoint_involution derQ_add derQ_mul [(1 : ℚ), 2, 3]

end OreFact
